import Mathlib

/-!
Verification development for the terrafy repository (github.com/apparentlymart/terrafy).

The definitions below are a shallow embedding, in Lean 4, of the import plan
builder and the configuration synthesis engine of terrafy:

* addressing (resourceAddr, resourceInstanceAddr, InstanceIDs) and the plan
  data model (importPlan, importPlanState, importPlanConfig) with its Sort
  step, from internal/terrafy (config source and plan.go);
* id normalization (prepareRawID, prepareRawIDs) and the plan builder
  (planImporting) from internal/terrafy/terrafy.go;
* the schema model, implied types and the configuration generator
  (generateConfigBody, generateConfigAttribute, generateConfigBlock) from the
  generate source file, together with the fragments of applyImporting that
  resolve repetition meta-arguments.

Go maps are embedded as association lists: one list value fixes one iteration
order, and properties that must hold for every iteration order are stated by
quantifying over permutations of the list.  Go's sort.SliceStable and
sort.Slice are embedded as a stable insertion sort by the transliterated
comparator.  A Go panic (including panics raised inside the cty library by
operations such as GetAttr on a value whose type lacks the attribute) is
embedded as the Option value none.
-/

namespace Terrafy

/-! ## Stable sorting, modelling the Go sort package -/

/-- Insert an element into a list, before the first element b with le a b.
With le a b defined as the negation of lt b a this places a after every
element that is not strictly greater, which is exactly where a stable sort
by the strict comparator lt puts a newly considered element. -/
def orderedInsert (le : α → α → Bool) (a : α) : List α → List α
  | [] => [a]
  | b :: l => if le a b then a :: b :: l else b :: orderedInsert le a l

/-- Stable insertion sort by the boolean relation le.  Used to model
sort.SliceStable, sort.Slice and sort.Strings from the Go standard library:
for sort.SliceStable with strict comparator lt we take le a b to be the
negation of lt b a, which reproduces the stable result; the unstable variants
are only applied by the source to lists whose comparator is total on the
elements involved, where every correct sort yields the same list. -/
def isort (le : α → α → Bool) : List α → List α
  | [] => []
  | a :: l => orderedInsert le a (isort le l)

theorem orderedInsert_perm (le : α → α → Bool) (a : α) (l : List α) :
    (orderedInsert le a l).Perm (a :: l) := by
  induction l with
  | nil => simp [orderedInsert]
  | cons b t ih =>
    by_cases h : le a b
    · simp [orderedInsert, h]
    · simp only [orderedInsert, h, if_neg, Bool.false_eq_true, ite_false]
      exact (List.Perm.cons b ih).trans (List.Perm.swap a b t)

theorem isort_perm (le : α → α → Bool) (l : List α) : (isort le l).Perm l := by
  induction l with
  | nil => simp [isort]
  | cons a t ih =>
    exact (orderedInsert_perm le a (isort le t)).trans (ih.cons a)

theorem mem_isort {le : α → α → Bool} {l : List α} {a : α} :
    a ∈ isort le l ↔ a ∈ l :=
  (isort_perm le l).mem_iff

theorem length_isort (le : α → α → Bool) (l : List α) :
    (isort le l).length = l.length :=
  (isort_perm le l).length_eq

theorem pairwise_orderedInsert (le : α → α → Bool) (a : α) (l : List α)
    (total : ∀ b ∈ l, le a b = true ∨ le b a = true)
    (trans : ∀ x ∈ a :: l, ∀ y ∈ a :: l, ∀ z ∈ a :: l,
      le x y = true → le y z = true → le x z = true)
    (h : l.Pairwise (fun x y => le x y = true)) :
    (orderedInsert le a l).Pairwise (fun x y => le x y = true) := by
  induction l with
  | nil => simp [orderedInsert]
  | cons b t ih =>
    rcases h with _ | ⟨hb, ht⟩
    by_cases hab : le a b = true
    · simp only [orderedInsert, hab, if_true]
      refine List.Pairwise.cons ?_ (List.Pairwise.cons hb ht)
      intro c hc
      rcases List.mem_cons.mp hc with hc | hc
      · exact hc ▸ hab
      · have hbc := hb c hc
        exact trans a (by simp) b (by simp) c (by simp [List.mem_cons, Or.inr hc])
          hab hbc
    · have hba : le b a = true := by
        rcases total b (by simp) with h1 | h1
        · exact absurd h1 hab
        · exact h1
      simp only [orderedInsert, hab, Bool.false_eq_true, ite_false]
      refine List.Pairwise.cons ?_ ?_
      · intro c hc
        have hc' := (orderedInsert_perm le a t).mem_iff.mp hc
        rcases List.mem_cons.mp hc' with hc' | hc'
        · exact hc' ▸ hba
        · exact hb c hc'
      · refine ih ?_ ?_ ht
        · intro c hc
          exact total c (by simp [List.mem_cons, Or.inr hc])
        · intro x hx y hy z hz
          have hsub : ∀ w, w ∈ a :: t → w ∈ a :: b :: t := by
            intro w hw
            rcases List.mem_cons.mp hw with hw | hw
            · simp [hw]
            · simp [List.mem_cons, Or.inr hw]
          exact trans x (hsub x hx) y (hsub y hy) z (hsub z hz)

theorem pairwise_isort (le : α → α → Bool) (l : List α)
    (total : ∀ a ∈ l, ∀ b ∈ l, le a b = true ∨ le b a = true)
    (trans : ∀ x ∈ l, ∀ y ∈ l, ∀ z ∈ l,
      le x y = true → le y z = true → le x z = true) :
    (isort le l).Pairwise (fun x y => le x y = true) := by
  induction l with
  | nil => simp [isort]
  | cons a t ih =>
    have hmem : ∀ b ∈ isort le t, b ∈ t := fun b hb => mem_isort.mp hb
    refine pairwise_orderedInsert le a (isort le t) ?_ ?_ ?_
    · intro b hb
      exact total a (by simp) b (by simp [List.mem_cons, hmem b hb])
    · intro x hx y hy z hz
      have hsub : ∀ w, w ∈ a :: isort le t → w ∈ a :: t := by
        intro w hw
        rcases List.mem_cons.mp hw with hw | hw
        · simp [hw]
        · simp [List.mem_cons, Or.inr (hmem w hw)]
      have hx' := hsub x hx
      have hy' := hsub y hy
      have hz' := hsub z hz
      intro h1 h2
      exact trans x (by simpa using hx') y (by simpa using hy')
        z (by simpa using hz') h1 h2
    · refine ih ?_ ?_
      · intro x hx y hy
        exact total x (by simp [List.mem_cons, hx]) y (by simp [List.mem_cons, hy])
      · intro x hx y hy z hz
        exact trans x (by simp [List.mem_cons, hx]) y (by simp [List.mem_cons, hy])
          z (by simp [List.mem_cons, hz])

theorem isort_of_pairwise (le : α → α → Bool) (l : List α)
    (h : l.Pairwise (fun x y => le x y = true)) : isort le l = l := by
  induction l with
  | nil => rfl
  | cons a t ih =>
    rcases h with _ | ⟨ha, ht⟩
    have := ih ht
    cases t with
    | nil => simp [isort, orderedInsert]
    | cons b u =>
      simp only [isort] at this ⊢
      rw [this, orderedInsert, if_pos (ha b (by simp))]

/-- Two lists sorted by le that are permutations of each other are equal,
provided le is antisymmetric on the elements actually present. -/
theorem eq_of_perm_of_pairwise (le : α → α → Bool) :
    ∀ (l₁ l₂ : List α),
    (∀ a ∈ l₁, ∀ b ∈ l₁, le a b = true → le b a = true → a = b) →
    l₁.Perm l₂ →
    l₁.Pairwise (fun x y => le x y = true) →
    l₂.Pairwise (fun x y => le x y = true) → l₁ = l₂
  | [], l₂, _, hp, _, _ => by simpa using hp.nil_eq
  | a :: t₁, l₂, anti, hp, h₁, h₂ => by
    have ha₂ : a ∈ l₂ := hp.mem_iff.mp (by simp)
    cases l₂ with
    | nil => exact absurd hp.symm.nil_eq (by simp)
    | cons b t₂ =>
      rcases h₁ with _ | ⟨hat₁, ht₁⟩
      rcases h₂ with _ | ⟨hbt₂, ht₂⟩
      have hb₁ : b ∈ a :: t₁ := hp.symm.mem_iff.mp (by simp)
      have hab : a = b := by
        rcases List.mem_cons.mp ha₂ with h | h
        · exact h
        rcases List.mem_cons.mp hb₁ with h' | h'
        · exact h'.symm
        · exact anti a (by simp) b (by simp [List.mem_cons, h'])
            (hat₁ b h') (hbt₂ a h)
      subst hab
      have hp' : t₁.Perm t₂ := (List.perm_cons a).mp hp
      have : t₁ = t₂ := by
        refine eq_of_perm_of_pairwise le t₁ t₂ ?_ hp' ht₁ ht₂
        intro x hx y hy
        exact anti x (by simp [List.mem_cons, hx]) y (by simp [List.mem_cons, hy])
      rw [this]

/-! ## Addressing: resourceAddr, resourceInstanceAddr -/

/-- Instance key of one resource instance.  In the Go source this is an
untyped interface value that in practice holds nil (no repetition), an int
(count-based repetition) or a string (for_each-based repetition). -/
inductive InstanceKey where
  | none
  | int (i : Int)
  | str (s : String)
deriving DecidableEq, Repr

/-- Resource address: mode, type and name.  Mode is the decoded
tfjson.ResourceMode string, in practice "managed" or "data".  The Go field
Type is called TypeName here because Type is a Lean keyword. -/
structure resourceAddr where
  Mode : String
  TypeName : String
  Name : String
deriving DecidableEq, Repr

/-- String form of a resource address, from the String method of
resourceAddr: type.name for managed resources, data.type.name for data
resources.  The Go method panics on any other mode, which is modelled by an
arbitrary marker string (no claim evaluates it on an invalid mode). -/
def resourceAddr.string (addr : resourceAddr) : String :=
  if addr.Mode = "managed" then addr.TypeName ++ "." ++ addr.Name
  else if addr.Mode = "data" then "data." ++ addr.TypeName ++ "." ++ addr.Name
  else "invalid-resource-address-mode"

/-- Address of one resource instance: a resource address plus an instance
key. -/
structure resourceInstanceAddr where
  Resource : resourceAddr
  InstanceKey : InstanceKey
deriving DecidableEq, Repr

/-- String form of a resource instance address, from the String method of
resourceInstanceAddr: the resource string, with a bracketed index for an int
key or a bracketed quoted key for a string key.  The Go code formats string
keys with %q; the quoting is modelled by surrounding double quotes (the
escaping of quote characters inside the key is not material to any claim). -/
def resourceInstanceAddr.string (a : resourceInstanceAddr) : String :=
  match a.InstanceKey with
  | .str k => a.Resource.string ++ "[\"" ++ k ++ "\"]"
  | .int i => a.Resource.string ++ "[" ++ toString i ++ "]"
  | .none => a.Resource.string

/-! ## cty types and values

The go-cty library's type and value trees, shallowly embedded.  Collections
are represented with bespoke list types (CtyTypeList, CtyTypeFields,
CtyValueList, CtyValuePairs) purely so that decidable equality can be
derived; converters to ordinary Lean lists are provided.  Equality of two
CtyValue terms embeds cty's Value.RawEquals, which is deep structural
equality of type and value together.  Numbers are embedded as integers: the
claims never compute with numeric payloads, only compare them. -/

mutual
inductive CtyType where
  | string
  | number
  | bool
  | dynamic
  | list (elem : CtyType)
  | set (elem : CtyType)
  | map (elem : CtyType)
  | tuple (elems : CtyTypeList)
  | object (attrs : CtyTypeFields)
deriving DecidableEq, Repr
inductive CtyTypeList where
  | nil
  | cons (head : CtyType) (tail : CtyTypeList)
deriving DecidableEq, Repr
inductive CtyTypeFields where
  | nil
  | cons (name : String) (ty : CtyType) (rest : CtyTypeFields)
deriving DecidableEq, Repr
end

mutual
inductive CtyValue where
  | nullV (ty : CtyType)
  | boolV (b : Bool)
  | numV (n : Int)
  | strV (s : String)
  | listV (elemTy : CtyType) (elems : CtyValueList)
  | setV (elemTy : CtyType) (elems : CtyValueList)
  | mapV (elemTy : CtyType) (pairs : CtyValuePairs)
  | tupleV (elems : CtyValueList)
  | objV (attrs : CtyValuePairs)
deriving DecidableEq, Repr
inductive CtyValueList where
  | nil
  | cons (head : CtyValue) (tail : CtyValueList)
deriving DecidableEq, Repr
inductive CtyValuePairs where
  | nil
  | cons (key : String) (head : CtyValue) (tail : CtyValuePairs)
deriving DecidableEq, Repr
end

def CtyTypeFields.ofList : List (String × CtyType) → CtyTypeFields
  | [] => .nil
  | (n, t) :: rest => .cons n t (ofList rest)

def CtyValueList.toList : CtyValueList → List CtyValue
  | .nil => []
  | .cons v rest => v :: rest.toList

def CtyValueList.ofList : List CtyValue → CtyValueList
  | [] => .nil
  | v :: rest => .cons v (ofList rest)

def CtyValuePairs.toList : CtyValuePairs → List (String × CtyValue)
  | .nil => []
  | .cons k v rest => (k, v) :: rest.toList

def CtyValuePairs.ofList : List (String × CtyValue) → CtyValuePairs
  | [] => .nil
  | (k, v) :: rest => .cons k v (ofList rest)

/-- Whether a value is null, modelling cty's Value.IsNull. -/
def CtyValue.isNull : CtyValue → Bool
  | .nullV _ => true
  | _ => false

def CtyTypeFields.hasAttr : CtyTypeFields → String → Bool
  | .nil, _ => false
  | .cons k _ rest, n => k = n || rest.hasAttr n

def CtyValuePairs.hasKey : CtyValuePairs → String → Bool
  | .nil, _ => false
  | .cons k _ rest, n => k = n || rest.hasKey n

def CtyValuePairs.lookup : CtyValuePairs → String → Option CtyValue
  | .nil, _ => none
  | .cons k v rest, n => if k = n then some v else rest.lookup n

/-- Whether the value's type has the named attribute, modelling the source's
obj.Type().HasAttribute(name).  A null value still carries an object type, so
the check looks through nulls at the type.  For a value whose type is not an
object type cty's HasAttribute panics; the code never reaches that situation
with a defined outcome, and the model returns false there, after which the
unconditional GetAttr fails just as the Go code would. -/
def CtyValue.typeHasAttr : CtyValue → String → Bool
  | .objV fs, n => fs.hasKey n
  | .nullV (.object as), n => as.hasAttr n
  | _, _ => false

/-- Attribute access, modelling cty's Value.GetAttr.  GetAttr panics when the
receiver's type is not an object type or lacks the attribute, and cannot
produce an attribute value out of a null object; every such panic is the
Option value none. -/
def CtyValue.getAttr : CtyValue → String → Option CtyValue
  | .objV fs, n => fs.lookup n
  | _, _ => none

/-- Elements of a sequence value, modelling cty's Value.AsValueSlice, which
panics (none) on null values and on values that are not of a list, set or
tuple type. -/
def CtyValue.asValueSlice : CtyValue → Option (List CtyValue)
  | .listV _ es => some es.toList
  | .setV _ es => some es.toList
  | .tupleV es => some es.toList
  | _ => none

/-- Entries of a keyed value, modelling cty's Value.AsValueMap, which panics
(none) on null values and on values that are not of a map or object type. -/
def CtyValue.asValueMap : CtyValue → Option (List (String × CtyValue))
  | .mapV _ ps => some ps.toList
  | .objV ps => some ps.toList
  | _ => none

/-! ## Raw id values and their normalization (prepareRawID, prepareRawIDs) -/

/-- Raw desired-ids data for one import target, as produced by decoding the
ids output with encoding/json: a JSON string, number, bool, null, array or
object.  Go decodes every JSON number to a float64; the embedding carries a
number together with the decimal text that strconv.FormatFloat(v, 'f', -1, 64)
renders for it (the shortest 'f'-format text that round-trips the float64);
the float-to-text conversion itself is IEEE-754 behaviour outside the
embedding. -/
inductive RawValue where
  | str (s : String)
  | num (text : String)
  | boolV (b : Bool)
  | nullV
  | list (elems : List RawValue)
  | map (entries : List (String × RawValue))

/-- Normalization of a single raw id, from prepareRawID: a string is taken
as-is, a number is rendered to its shortest decimal text, anything else is
an error. -/
def prepareRawID : RawValue → Except String String
  | .str s => .ok s
  | .num t => .ok t
  | _ => .error "must be a string, a list of strings, or a map of strings"

/-- Normalized ids value, the cty.Value result of prepareRawIDs: a single
string, a list of strings, or a map of strings. -/
inductive IdsVal where
  | one (s : String)
  | list (ss : List String)
  | map (m : List (String × String))
deriving DecidableEq, Repr

/-- Normalization of the whole raw desired-ids value, from prepareRawIDs: a
JSON array normalizes each element with prepareRawID into a list of strings
(the first element error aborts the target), a JSON object normalizes each
entry value into a map of strings, and any other shape is handed to
prepareRawID directly, so only a string or a number survives as a single
id. -/
def prepareRawIDs : RawValue → Except String IdsVal
  | .list rv => do
    let norm ← rv.mapM prepareRawID
    pure (.list norm)
  | .map rv => do
    let norm ← rv.mapM fun p => do
      let s ← prepareRawID p.2
      pure (p.1, s)
    pure (.map norm)
  | raw => do
    let s ← prepareRawID raw
    pure (.one s)

/-- Expansion of a normalized ids value into one remote id per instance
address, from the InstanceIDs method of resourceAddr: a single string maps to
the no-key instance, a list to int keys 0..len-1 in order, a map to string
keys.  The Go method returns a Go map; the list here records its entries in
one iteration order. -/
def resourceAddr.InstanceIDs (addr : resourceAddr) : IdsVal → List (resourceInstanceAddr × String)
  | .one s => [(⟨addr, .none⟩, s)]
  | .list ss => ss.enum.map fun p => (⟨addr, .int p.1⟩, p.2)
  | .map m => m.map fun p => (⟨addr, .str p.1⟩, p.2)

/-! ## The import plan and its deterministic sort (plan.go) -/

structure importPlanState where
  Target : resourceInstanceAddr
  ID : String
deriving DecidableEq, Repr

structure importPlanConfig where
  Target : resourceAddr
  RepeatMode : String
  Filename : String
deriving DecidableEq, Repr

structure importPlan where
  ToState : List importPlanState
  ToConfig : List importPlanConfig
deriving DecidableEq, Repr

/-- Instance key comparison from the ToState comparator of importPlan.Sort,
reached only when the two keys are unequal.  The Go code extracts the string
and int payloads with checked type assertions whose failed form yields the
zero value ("" and 0), and tests: int before string; two ints numerically;
otherwise the string payloads lexicographically. -/
def planKeyLess (ki kj : InstanceKey) : Bool :=
  let kiStr := match ki with | .str s => s | _ => ""
  let kjStr := match kj with | .str s => s | _ => ""
  let kiInt := match ki with | .int i => i | _ => 0
  let kjInt := match kj with | .int i => i | _ => 0
  let kiIsStr := match ki with | .str _ => true | _ => false
  let kjIsStr := match kj with | .str _ => true | _ => false
  let kiIsInt := match ki with | .int _ => true | _ => false
  let kjIsInt := match kj with | .int _ => true | _ => false
  if kiIsInt && kjIsStr then true
  else if kiIsStr && kjIsInt then false
  else if kiIsInt then decide (kiInt < kjInt)
  else decide (kiStr < kjStr)

/-- Strict comparator on state-binding actions from importPlan.Sort:
lexicographic on resource mode, type, name, then the instance key. -/
def stateLess (ai aj : importPlanState) : Bool :=
  if ai.Target.Resource.Mode ≠ aj.Target.Resource.Mode then
    decide (ai.Target.Resource.Mode < aj.Target.Resource.Mode)
  else if ai.Target.Resource.TypeName ≠ aj.Target.Resource.TypeName then
    decide (ai.Target.Resource.TypeName < aj.Target.Resource.TypeName)
  else if ai.Target.Resource.Name ≠ aj.Target.Resource.Name then
    decide (ai.Target.Resource.Name < aj.Target.Resource.Name)
  else if ai.Target.InstanceKey ≠ aj.Target.InstanceKey then
    planKeyLess ai.Target.InstanceKey aj.Target.InstanceKey
  else false

/-- Strict comparator on config-stub actions from importPlan.Sort:
lexicographic on resource mode, type, name. -/
def configLess (ai aj : importPlanConfig) : Bool :=
  if ai.Target.Mode ≠ aj.Target.Mode then decide (ai.Target.Mode < aj.Target.Mode)
  else if ai.Target.TypeName ≠ aj.Target.TypeName then
    decide (ai.Target.TypeName < aj.Target.TypeName)
  else if ai.Target.Name ≠ aj.Target.Name then
    decide (ai.Target.Name < aj.Target.Name)
  else false

/-- The Sort method of importPlan (named sortPlan because Sort is a Lean
keyword): both action lists are sorted stably by their comparators, modelling
sort.SliceStable. -/
def importPlan.sortPlan (p : importPlan) : importPlan :=
  { ToState := isort (fun a b => !stateLess b a) p.ToState,
    ToConfig := isort (fun a b => !configLess b a) p.ToConfig }

/-! ## The import plan builder (planImporting) -/

inductive DiagSeverity where
  | error
  | warning
deriving DecidableEq, Repr

structure Diag where
  Severity : DiagSeverity
  Summary : String
deriving DecidableEq, Repr

/-- One import target as planImporting sees it after matching an ids entry
back to its import block: the resource address, the raw desired-ids value,
and the name of the source file whose import block declared the target (the
DefRange filename). -/
structure ImportTarget where
  addr : resourceAddr
  rawIds : RawValue
  srcFilename : String

/-- Repetition mode derived from the shape of the normalized ids value, from
the switch in planImporting: a list type means count, a map type means
for_each, anything else (a single string) means no repetition at all. -/
def repeatModeForIds : IdsVal → String
  | .list _ => "count"
  | .map _ => "for_each"
  | .one _ => ""

/-- Suffix test on strings, modelling Go's strings.HasSuffix via the
character list (equivalent to the byte-level test for the ASCII suffixes the
source uses). -/
def strHasSuffix (s suffx : String) : Bool :=
  suffx.data.isSuffixOf s.data

/-- Removal of the final character of a string, modelling the Go slice
expression that drops the final byte (the final character is the ASCII 'y'
whenever the source applies this). -/
def strDropLast (s : String) : String :=
  ⟨s.data.dropLast⟩

/-- Destination filename for a generated config stub, from planImporting:
the declaring source file's name with its final byte dropped when it ends in
the .tfy suffix (turning .tfy into .tf), else the default imported.tf. -/
def targetFilenameFor (sourceFilename : String) : String :=
  if strHasSuffix sourceFilename ".tfy" then strDropLast sourceFilename
  else "imported.tf"

/-- The per-target body of planImporting's main loop.  A failed id
normalization records one error diagnostic and produces no actions for the
target.  Otherwise every computed instance address whose string form does not
equal the address string of an existing state resource contributes one state
binding, and one config stub is appended exactly when the bare resource
address is not among the declared managed resources. -/
def planTarget (existing : List String) (managedResources : List resourceAddr)
    (t : ImportTarget) : List importPlanState × List importPlanConfig × List Diag :=
  match prepareRawIDs t.rawIds with
  | .error _ => ([], [], [⟨.error, "Invalid id value"⟩])
  | .ok idsVal =>
    let toState := (t.addr.InstanceIDs idsVal).filterMap fun p =>
      if existing.any (fun e => e = p.1.string) then none
      else some ⟨p.1, p.2⟩
    let toConfig := if managedResources.contains t.addr then []
      else [⟨t.addr, repeatModeForIds idsVal, targetFilenameFor t.srcFilename⟩]
    (toState, toConfig, [])

/-- The plan builder, from planImporting: targets are processed in one
iteration order of the ids map, their contributed actions and diagnostics
concatenated in that order.  The existing argument carries the address
strings of the resources in the current state snapshot, and managedResources
the resource addresses already declared in configuration. -/
def planImporting (targets : List ImportTarget) (existing : List String)
    (managedResources : List resourceAddr) : importPlan × List Diag :=
  let results := targets.map (planTarget existing managedResources)
  (⟨(results.map (fun r => r.1)).flatten, (results.map (fun r => r.2.1)).flatten⟩,
    (results.map (fun r => r.2.2)).flatten)

/-! ## Attribute emission (generateConfigAttribute) -/

/-- Instance key comparison from the sort.Slice comparator inside
generateConfigAttribute.  The Go code extracts int and string payloads with
checked type assertions (zero values 0 and "" on failure) and tests: if
exactly one side is an int, the int side first; two ints numerically; in all
other cases the string payloads lexicographically. -/
def keyLess (a b : InstanceKey) : Bool :=
  let iInt := match a with | .int i => i | _ => 0
  let jInt := match b with | .int i => i | _ => 0
  let iStr := match a with | .str s => s | _ => ""
  let jStr := match b with | .str s => s | _ => ""
  let iIsInt := match a with | .int _ => true | _ => false
  let jIsInt := match b with | .int _ => true | _ => false
  if iIsInt ≠ jIsInt then iIsInt
  else if iIsInt then decide (iInt < jInt)
  else decide (iStr < jStr)

/-- Bracket tokens chosen for the lookup-table literal: square brackets (a
tuple constructor) when the first key examined is an int, braces (an object
constructor) when it is a string. -/
inductive BracketStyle where
  | square
  | brace
deriving DecidableEq, Repr

/-- The repetition reference spliced after the table literal: the traversal
count.index for int keys, each.key for string keys. -/
inductive RepRef where
  | countIndex
  | eachKey
deriving DecidableEq, Repr

/-- One entry of the emitted table literal: positional (just the value's
tokens) for a non-string key, or a quoted key, an equals sign and the value's
tokens for a string key. -/
inductive TableEntry where
  | pos (v : CtyValue)
  | keyed (k : String) (v : CtyValue)
deriving DecidableEq, Repr

/-- The emitted lookup-table literal: the bracket style chosen from the first
key examined, and the entries in emission order. -/
structure TableLit where
  style : BracketStyle
  entries : List TableEntry
deriving DecidableEq, Repr

/-- What generateConfigAttribute contributes to the output body for one
attribute: nothing (a common null value), a constant assignment
name = value, or a dynamic lookup name = table[ref]. -/
inductive AttrEmission where
  | omit
  | const (name : String) (v : CtyValue)
  | dynamic (name : String) (table : TableLit) (ref : RepRef)
deriving DecidableEq, Repr

/-- The singleVal loop of generateConfigAttribute: starting from cty.NilVal
(none), the first value is adopted, every later value is compared with
RawEquals, and the first difference resets singleVal to NilVal and breaks out
of the loop. -/
def singleValScan : Option CtyValue → List CtyValue → Option CtyValue
  | acc, [] => acc
  | Option.none, v :: rest => singleValScan (some v) rest
  | some u, v :: rest => if u = v then singleValScan (some u) rest else none

/-- Lookup of a value by instance key, modelling the vVals map built inside
generateConfigAttribute: a Go map write retains the last value stored for a
key, hence the reversed search. -/
def lookupInstKey (vals : List (resourceInstanceAddr × CtyValue)) (k : InstanceKey) :
    Option CtyValue :=
  (vals.reverse.find? (fun p => decide (p.1.InstanceKey = k))).map (fun p => p.2)

/-- The divergent branch of generateConfigAttribute, after the bracket style
and repetition reference have been fixed from the first key examined: the
keys are collected, sorted with keyLess (via sort.Slice), and each sorted key
contributes one table entry, keyed for a string key and positional otherwise.
The value filler for an absent key is unreachable because every sorted key
comes from vals itself. -/
def buildDynamicLookup (name : String) (vals : List (resourceInstanceAddr × CtyValue))
    (style : BracketStyle) (ref : RepRef) : AttrEmission :=
  let keys := vals.map (fun p => p.1.InstanceKey)
  let sorted := isort (fun a b => !keyLess b a) keys
  let entries := sorted.map fun k =>
    match k with
    | .str s => TableEntry.keyed s ((lookupInstKey vals k).getD (CtyValue.nullV .dynamic))
    | k' => TableEntry.pos ((lookupInstKey vals k').getD (CtyValue.nullV .dynamic))
  .dynamic name ⟨style, entries⟩ ref

/-- Emission of one attribute, from generateConfigAttribute.  If the
singleVal loop leaves a value, the constant case applies: a non-null common
value becomes a constant assignment, a null one is omitted.  Otherwise the
first instance key examined fixes the repetition reference and bracket style
(count.index with square brackets for an int key, each.key with braces for a
string key; a nil instance key panics), and the divergent lookup table is
built.  With no instances at all the Go code would build the lookup from nil
traversal and bracket tokens, an unusable token stream, modelled as none. -/
def generateConfigAttribute (name : String)
    (vals : List (resourceInstanceAddr × CtyValue)) : Option AttrEmission :=
  match singleValScan none (vals.map (fun p => p.2)) with
  | some v => some (if v.isNull then .omit else .const name v)
  | Option.none =>
    match vals.head? with
    | Option.none => none
    | some p =>
      match p.1.InstanceKey with
      | .none => none
      | .int _ => some (buildDynamicLookup name vals .square .countIndex)
      | .str _ => some (buildDynamicLookup name vals .brace .eachKey)

def tableEntryPos? : TableEntry → Option CtyValue
  | .pos v => some v
  | _ => none

def tableEntryKeyed? : TableEntry → Option (String × CtyValue)
  | .keyed k v => some (k, v)
  | _ => none

/-- Evaluation of the emitted subscript expression at one instance's own
key.  Modelled from the index operation of the HCL language (an external
collaborator of this repository): a square-bracket (tuple constructor)
literal indexes by integer position, valid only within range; a brace
(object constructor) literal indexes by string key; a literal that mixes
positional and keyed entries, or an index whose key variant does not match
the literal's bracket style, is not valid HCL and yields no value. -/
def TableLit.index (t : TableLit) (k : InstanceKey) : Option CtyValue :=
  match t.style, k with
  | .square, .int i =>
    match t.entries.mapM tableEntryPos? with
    | some vs => if 0 ≤ i then vs[i.toNat]? else none
    | Option.none => none
  | .brace, .str s =>
    match t.entries.mapM tableEntryKeyed? with
    | some ps => (ps.find? (fun p => decide (p.1 = s))).map (fun p => p.2)
    | Option.none => none
  | _, _ => none

/-! ## Schemas and implied types (schema.go) -/

/-- Nesting mode of a nested block type, from tfjson.SchemaNestingMode.  The
invalid constructor stands for any mode string the source does not know,
which its switch statements fall through. -/
inductive NestingMode where
  | single
  | list
  | set
  | map
  | invalid
deriving DecidableEq, Repr

/-- Schema of one attribute: its cty value type and the writability flags.
Only the fields the source consults are embedded. -/
structure SchemaAttribute where
  AttributeType : CtyType
  Required : Bool
  Optional : Bool
deriving DecidableEq, Repr

mutual
inductive SchemaBlock where
  | mk (attributes : List (String × SchemaAttribute))
       (nestedBlocks : List (String × SchemaBlockType))
inductive SchemaBlockType where
  | mk (nestingMode : NestingMode) (block : SchemaBlock)
end

def SchemaBlock.attributes : SchemaBlock → List (String × SchemaAttribute)
  | .mk a _ => a

def SchemaBlock.nestedBlocks : SchemaBlock → List (String × SchemaBlockType)
  | .mk _ b => b

def SchemaBlockType.nestingMode : SchemaBlockType → NestingMode
  | .mk m _ => m

def SchemaBlockType.block : SchemaBlockType → SchemaBlock
  | .mk _ b => b

/-- Implied cty type of one attribute, from schemaAttrImpliedType. -/
def schemaAttrImpliedType (attrS : SchemaAttribute) : CtyType :=
  attrS.AttributeType

theorem sizeOf_snd_lt_of_mem' {x : String × SchemaBlockType}
    {l : List (String × SchemaBlockType)} (h : x ∈ l) : sizeOf x.2 < sizeOf l := by
  have h1 : sizeOf x < sizeOf l := List.sizeOf_lt_of_mem h
  have h2 : sizeOf x.2 < sizeOf x := by
    obtain ⟨a, b⟩ := x
    simp only [Prod.mk.sizeOf_spec]
    omega
  omega

mutual
/-- Implied cty type of a block schema, from schemaBlockImpliedType: an
object type whose fields are the attribute types together with the wrapped
implied types of the nested block types, a nested block whose implied type is
cty.NilType (an unknown nesting mode) contributing no field. -/
def schemaBlockImpliedType : SchemaBlock → CtyType
  | .mk attributes nestedBlocks =>
    let attrTys := attributes.map (fun p => (p.1, p.2.AttributeType))
    let blockTys := nestedBlocks.attach.filterMap (fun x =>
      match schemaNestedBlockImpliedType x.1.2 with
      | some t => some (x.1.1, t)
      | Option.none => none)
    .object (CtyTypeFields.ofList (attrTys ++ blockTys))
termination_by schema => sizeOf schema
decreasing_by
  have := sizeOf_snd_lt_of_mem' x.2
  simp only [SchemaBlock.mk.sizeOf_spec]
  omega
/-- Implied cty type of a nested block type, from
schemaNestedBlockImpliedType: the nested block's implied type wrapped
according to the nesting mode, or cty.NilType (none) for an unknown mode. -/
def schemaNestedBlockImpliedType : SchemaBlockType → Option CtyType
  | .mk mode block =>
    let ety := schemaBlockImpliedType block
    match mode with
    | .single => some ety
    | .list => some (.list ety)
    | .map => some (.map ety)
    | .set => some (.set ety)
    | .invalid => none
termination_by bt => sizeOf bt
decreasing_by
  simp only [SchemaBlockType.mk.sizeOf_spec]
  omega
end

/-! ## Body generation (generateConfigBody, generateConfigBlock) -/

/-! One item of a generated configuration block body is the structured view
of what the source appends to an hclwrite body: an attribute emission, a
nested block with its type name, labels and body, or a raw comment token. -/

mutual
inductive BodyItem where
  | attr (e : AttrEmission)
  | block (typeName : String) (labels : List String) (body : BodyItems)
  | comment (text : String)
deriving DecidableEq, Repr
inductive BodyItems where
  | nil
  | cons (head : BodyItem) (tail : BodyItems)
deriving DecidableEq, Repr
end

def BodyItems.ofList : List BodyItem → BodyItems
  | [] => .nil
  | b :: rest => .cons b (ofList rest)

/-- One iteration of the attribute gather loop in generateConfigBody.  When
the instance object's type lacks the attribute, a null of the attribute's
type is stored as that instance's value, but the store is immediately
overwritten by the next statement's unconditional GetAttr, which fails on
exactly that missing attribute; the dead store is kept to mirror the
source. -/
def gatherAttrVal (obj : CtyValue) (name : String) (attrTy : CtyType) : Option CtyValue :=
  let _overwritten := if !obj.typeHasAttr name then some (CtyValue.nullV attrTy) else none
  obj.getAttr name

/-- One iteration of the single-nesting gather loop in generateConfigBody,
with the same overwritten null substitution as the attribute gather. -/
def gatherBlockVal (obj : CtyValue) (typeName : String) (sub : SchemaBlock) : Option CtyValue :=
  let _overwritten :=
    if !obj.typeHasAttr typeName then some (CtyValue.nullV (schemaBlockImpliedType sub)) else none
  obj.getAttr typeName

mutual
/-- Generation of one block body, from generateConfigBody.  Attribute names
and nested block type names are read from Go maps (hence distinct) and
sorted lexicographically; the embedding sorts the association lists by name
with the same order.  Each writable attribute's per-instance values are
gathered and handed to generateConfigAttribute; each nested block type is
then expanded according to its nesting mode.  The unused resource-address
parameter of the source is dropped. -/
def generateConfigBody (schema : SchemaBlock)
    (vals : List (resourceInstanceAddr × CtyValue)) : Option (List BodyItem) :=
  match schema with
  | .mk attributes nestedBlocks => do
    let sortedAttrs := isort (fun a b => !(decide (b.1 < a.1))) attributes
    let sortedBlocks :=
      isort (fun (a b : String × SchemaBlockType) => !(decide (b.1 < a.1))) nestedBlocks
    let attrItems ← sortedAttrs.mapM (fun pa =>
      if !(pa.2.Required || pa.2.Optional) then pure []
      else do
        let attrVals ← vals.mapM (fun p => do
          let v ← gatherAttrVal p.2 pa.1 pa.2.AttributeType
          pure (p.1, v))
        let e ← generateConfigAttribute pa.1 attrVals
        pure (match e with
          | .omit => ([] : List BodyItem)
          | e' => [BodyItem.attr e']))
    let blockItems ← sortedBlocks.attach.mapM (fun x => genNestedBlock x.1.1 x.1.2 vals)
    pure (attrItems.flatten ++ blockItems.flatten)
termination_by (sizeOf schema, 0)
decreasing_by
  have hx := mem_isort.mp x.2
  have := sizeOf_snd_lt_of_mem' hx
  simp only [SchemaBlock.mk.sizeOf_spec]
  exact Prod.Lex.left _ _ (by omega)

/-- Expansion of one nested block type, from the nesting-mode switch of
generateConfigBody.  An unknown nesting mode matches no case and contributes
nothing. -/
def genNestedBlock (typeName : String) (bt : SchemaBlockType)
    (vals : List (resourceInstanceAddr × CtyValue)) : Option (List BodyItem) :=
  match bt with
  | .mk mode sub =>
    match mode with
    | .single => do
      let attrVals ← vals.mapM (fun p => do
        let v ← gatherBlockVal p.2 typeName sub
        pure (p.1, v))
      let b ← generateConfigBlock typeName [] sub attrVals
      pure [b]
    | .list => genNestedListSet typeName sub vals
    | .set => genNestedListSet typeName sub vals
    | .map => genNestedMap typeName sub vals
    | .invalid => pure []
termination_by (sizeOf bt, 3)
decreasing_by
  · simp only [SchemaBlockType.mk.sizeOf_spec]
    exact Prod.Lex.left _ _ (by omega)
  · simp only [SchemaBlockType.mk.sizeOf_spec]
    exact Prod.Lex.left _ _ (by omega)
  · simp only [SchemaBlockType.mk.sizeOf_spec]
    exact Prod.Lex.left _ _ (by omega)
  · simp only [SchemaBlockType.mk.sizeOf_spec]
    exact Prod.Lex.left _ _ (by omega)

/-- List and Set nesting, from generateConfigBody: each instance's sequence
for the block type is read (the absent-attribute store being overwritten as
in the gathers above), the maximum length is computed, and one block is
generated per position, shorter instances padded with a null of the nested
block's implied type. -/
def genNestedListSet (typeName : String) (sub : SchemaBlock)
    (vals : List (resourceInstanceAddr × CtyValue)) : Option (List BodyItem) :=
  do
    let slices ← vals.mapM (fun p => do
      let _overwritten := if !p.2.typeHasAttr typeName then some ([] : List CtyValue) else none
      let av ← p.2.getAttr typeName
      let s ← av.asValueSlice
      pure (p.1, s))
    let maxLen := slices.foldl (fun m p => if p.2.length > m then p.2.length else m) 0
    (List.range maxLen).mapM (fun i => do
      let attrVals := slices.map (fun p =>
        (p.1, (p.2[i]?).getD (CtyValue.nullV (schemaBlockImpliedType sub))))
      generateConfigBlock typeName [] sub attrVals)
termination_by (sizeOf sub, 2)
decreasing_by
  exact Prod.Lex.right _ (by omega)

/-- Map nesting, from generateConfigBody: each instance's keyed entries for
the block type are read, the union of all keys is collected and sorted, and
one labelled block is generated per key, instances lacking the key padded
with a null of the nested block's implied type. -/
def genNestedMap (typeName : String) (sub : SchemaBlock)
    (vals : List (resourceInstanceAddr × CtyValue)) : Option (List BodyItem) :=
  do
    let maps ← vals.mapM (fun p => do
      let _overwritten :=
        if !p.2.typeHasAttr typeName then some ([] : List (String × CtyValue)) else none
      let av ← p.2.getAttr typeName
      let m ← av.asValueMap
      pure (p.1, m))
    let allKeyNames :=
      isort (fun a b => !(decide (b < a)))
        ((maps.flatMap (fun p => p.2.map (fun q => q.1))).dedup)
    allKeyNames.mapM (fun k => do
      let attrVals := maps.map (fun p =>
        (p.1, (((p.2.find? (fun q => decide (q.1 = k))).map (fun q => q.2)).getD
          (CtyValue.nullV (schemaBlockImpliedType sub)))))
      generateConfigBlock typeName [k] sub attrVals)
termination_by (sizeOf sub, 2)
decreasing_by
  exact Prod.Lex.right _ (by omega)

/-- Generation of one nested block, from generateConfigBlock: a new block
with the given type name and labels is appended whose body is generated
recursively from the nested schema. -/
def generateConfigBlock (typeName : String) (labels : List String) (sub : SchemaBlock)
    (vals : List (resourceInstanceAddr × CtyValue)) : Option BodyItem :=
  do
    let body ← generateConfigBody sub vals
    pure (BodyItem.block typeName labels (BodyItems.ofList body))
termination_by (sizeOf sub, 1)
decreasing_by
  exact Prod.Lex.right _ (by omega)
end

/-! ## Repetition meta-argument resolution (fragments of applyImporting) -/

/-- The highest int instance key, from the count case of applyImporting: a
fold over the collected instances starting at -1, raising the running value
whenever an int key exceeds it (string and nil keys are ignored). -/
def countHighest (instances : List resourceInstanceAddr) : Int :=
  instances.foldl (fun highest a =>
    match a.InstanceKey with
    | .int v => if v > highest then v else highest
    | _ => highest) (-1)

/-- The emitted count meta-argument value, from applyImporting: the highest
observed int instance key plus one. -/
def countMetaArg (instances : List resourceInstanceAddr) : Int :=
  countHighest instances + 1

/-- The body-or-placeholder decision of applyImporting: with at least one
instance the body is synthesized by the generator (via generateResourceConfig,
whose JSON decoding step is outside this embedding, so the decoded values are
taken directly); with no instances a placeholder comment is written instead
and a non-fatal warning diagnostic is emitted. -/
def applyConfigBody (instances : List (resourceInstanceAddr × CtyValue))
    (schema : SchemaBlock) : Option (List BodyItem) × List Diag :=
  if instances.length > 0 then
    (generateConfigBody schema instances, [])
  else
    (some [BodyItem.comment
      "# IMPORT-TODO: Write a configuration for hypothetical future instances of this resource.\n"],
     [⟨.warning, "Resource with no instances"⟩])

/-! ## Spec-side helper notions used by the claim statements -/

/-- Variant of an instance key, for stating the one-variant-per-resource
invariant: 0 for no key, 1 for an int key, 2 for a string key. -/
def InstanceKey.variant : InstanceKey → Nat
  | .none => 0
  | .int _ => 1
  | .str _ => 2

/-- Int instance keys observed among a list of instance addresses. -/
def intKeys (instances : List resourceInstanceAddr) : List Int :=
  instances.filterMap (fun a =>
    match a.InstanceKey with
    | .int i => some i
    | _ => none)

/-- Shape predicate following the claim wording for id normalization: a raw
id collection is acceptable when it is a string, a number, a list all of
whose elements are strings or numbers, or a map all of whose values are
strings or numbers. -/
def isStrOrNum : RawValue → Bool
  | .str _ => true
  | .num _ => true
  | _ => false

def specAcceptableIds : RawValue → Bool
  | .str _ => true
  | .num _ => true
  | .list xs => xs.all isStrOrNum
  | .map m => m.all (fun p => isStrOrNum p.2)
  | _ => false

/-- Text an acceptable raw id resolves to: the string itself, or the
canonical decimal text of a number. -/
def rawIdText : RawValue → String
  | .str s => s
  | .num t => t
  | _ => ""

/-- Nodup condition on the keys of a normalized map of ids; holds trivially
for the other shapes.  The ids maps handed to InstanceIDs decode from Go
maps, whose keys are necessarily distinct. -/
def idsKeysNodup : IdsVal → Prop
  | .map m => (m.map (fun p => p.1)).Nodup
  | _ => True

/-! ## Supporting lemmas -/

theorem singleValScan_of_all_eq (v : CtyValue) :
    ∀ (l : List CtyValue), (∀ w ∈ l, w = v) → singleValScan (some v) l = some v
  | [], _ => rfl
  | w :: rest, h => by
    have hw : w = v := h w (by simp)
    rw [singleValScan, if_pos hw.symm]
    exact singleValScan_of_all_eq v rest (fun u hu => h u (by simp [hu]))

theorem foldl_if_max_eq_foldl_max :
    ∀ (l : List Int) (acc : Int),
    l.foldl (fun h v => if v > h then v else h) acc = l.foldl max acc
  | [], _ => rfl
  | v :: rest, acc => by
    have hstep : (if v > acc then v else acc) = max acc v := by
      rw [max_def]
      split <;> split <;> omega
    simp only [List.foldl_cons, hstep]
    exact foldl_if_max_eq_foldl_max rest (max acc v)

theorem countHighest_eq_foldl :
    ∀ (l : List resourceInstanceAddr) (acc : Int),
    l.foldl (fun highest a =>
      match a.InstanceKey with
      | .int v => if v > highest then v else highest
      | _ => highest) acc = (intKeys l).foldl max acc
  | [], _ => rfl
  | a :: rest, acc => by
    cases ha : a.InstanceKey with
    | int v =>
      simp only [List.foldl_cons, ha, intKeys, List.filterMap_cons]
      have hstep : (if v > acc then v else acc) = max acc v := by
        rw [max_def]
        split <;> split <;> omega
      rw [hstep]
      exact countHighest_eq_foldl rest (max acc v)
    | none =>
      simp only [List.foldl_cons, ha, intKeys, List.filterMap_cons]
      exact countHighest_eq_foldl rest acc
    | str s =>
      simp only [List.foldl_cons, ha, intKeys, List.filterMap_cons]
      exact countHighest_eq_foldl rest acc

theorem le_self_foldl_max : ∀ (l : List Int) (acc : Int), acc ≤ l.foldl max acc
  | [], _ => le_refl _
  | v :: rest, acc => by
    calc acc ≤ max acc v := le_max_left acc v
      _ ≤ (v :: rest).foldl max acc := by
        simp only [List.foldl_cons]
        exact le_self_foldl_max rest (max acc v)

theorem le_foldl_max_of_mem :
    ∀ (l : List Int) (acc a : Int), a ∈ l → a ≤ l.foldl max acc
  | [], _, _, h => absurd h (by simp)
  | v :: rest, acc, a, h => by
    rcases List.mem_cons.mp h with h | h
    · subst h
      simp only [List.foldl_cons]
      calc a ≤ max acc a := le_max_right acc a
        _ ≤ rest.foldl max (max acc a) := le_self_foldl_max _ _
    · simp only [List.foldl_cons]
      exact le_foldl_max_of_mem rest (max acc v) a h

theorem foldl_max_le :
    ∀ (l : List Int) (acc b : Int), acc ≤ b → (∀ a ∈ l, a ≤ b) → l.foldl max acc ≤ b
  | [], _, _, hacc, _ => hacc
  | v :: rest, acc, b, hacc, hall => by
    simp only [List.foldl_cons]
    exact foldl_max_le rest (max acc v) b
      (max_le hacc (hall v (by simp))) (fun a ha => hall a (by simp [ha]))

/-! ## Claim theorems -/

/-- Text payload of a string instance key (used to state ordering of the
emitted mapping entries). -/
def keyText : InstanceKey → String
  | .str s => s
  | _ => ""

theorem find?_eq_of_map_nodup {α : Type _} {β : Type _} [DecidableEq β] :
    ∀ (l : List α) (f : α → β) (x : α), (l.map f).Nodup → x ∈ l →
    l.find? (fun y => decide (f y = f x)) = some x
  | [], _, _, _, hx => absurd hx (by simp)
  | a :: t, f, x, hnd, hx => by
    rw [List.map_cons] at hnd
    have hnd' := List.nodup_cons.mp hnd
    by_cases hfa : f a = f x
    · have hax : a = x := by
        rcases List.mem_cons.mp hx with h | h
        · exact h.symm
        · exact absurd (hfa ▸ List.mem_map.mpr ⟨x, h, rfl⟩) hnd'.1
      rw [List.find?_cons_of_pos _ (by simp [hfa])]
      rw [hax]
    · rw [List.find?_cons_of_neg _ (by simp [hfa])]
      have hx' : x ∈ t := by
        rcases List.mem_cons.mp hx with h | h
        · exact absurd (by rw [h]) hfa
        · exact h
      exact find?_eq_of_map_nodup t f x hnd'.2 hx'

theorem lookupInstKey_eq (vals : List (resourceInstanceAddr × CtyValue))
    (p : resourceInstanceAddr × CtyValue)
    (hnd : (vals.map (fun q => q.1.InstanceKey)).Nodup) (hm : p ∈ vals) :
    lookupInstKey vals p.1.InstanceKey = some p.2 := by
  have hndr : (vals.reverse.map (fun q => q.1.InstanceKey)).Nodup := by
    rw [List.map_reverse]
    exact List.nodup_reverse.mpr hnd
  have hmr : p ∈ vals.reverse := List.mem_reverse.mpr hm
  have h := find?_eq_of_map_nodup vals.reverse (fun q => q.1.InstanceKey) p hndr hmr
  unfold lookupInstKey
  rw [h]
  rfl

theorem mapM_map_eq_some {α β γ : Type _} (f : α → β) (h : β → Option γ) (g : α → γ) :
    ∀ (l : List α), (∀ a ∈ l, h (f a) = some (g a)) →
    (l.map f).mapM h = some (l.map g)
  | [], _ => rfl
  | a :: t, hall => by
    rw [List.map_cons, List.map_cons, List.mapM_cons, hall a (by simp),
      mapM_map_eq_some f h g t (fun b hb => hall b (by simp [hb]))]
    rfl

theorem keyLess_str_str (s t : String) : keyLess (.str s) (.str t) = decide (s < t) := rfl

theorem keyLess_int_int (i j : Int) : keyLess (.int i) (.int j) = decide (i < j) := rfl

theorem singleValScan_some_iff_aux (u v : CtyValue) :
    ∀ (l : List CtyValue),
    (singleValScan (some u) l = some v ↔ (v = u ∧ ∀ w ∈ l, w = u))
  | [] => by
    rw [singleValScan]
    constructor
    · intro h
      exact ⟨(Option.some.inj h).symm, by simp⟩
    · rintro ⟨rfl, -⟩
      rfl
  | w :: rest => by
    rw [singleValScan]
    by_cases hw : u = w
    · rw [if_pos hw]
      rw [singleValScan_some_iff_aux u v rest]
      constructor
      · rintro ⟨rfl, hall⟩
        exact ⟨rfl, by
          intro x hx
          rcases List.mem_cons.mp hx with hx | hx
          · exact hx ▸ hw.symm
          · exact hall x hx⟩
      · rintro ⟨rfl, hall⟩
        exact ⟨rfl, fun x hx => hall x (by simp [hx])⟩
    · rw [if_neg hw]
      simp only [false_iff, reduceCtorEq, false_and]
      rintro ⟨rfl, hall⟩
      exact hw (hall w (by simp)).symm

theorem singleValScan_some_iff (v : CtyValue) (l : List CtyValue) :
    singleValScan Option.none l = some v ↔ (l ≠ [] ∧ ∀ w ∈ l, w = v) := by
  cases l with
  | nil => simp [singleValScan]
  | cons w rest =>
    rw [singleValScan, singleValScan_some_iff_aux w v rest]
    constructor
    · rintro ⟨rfl, hall⟩
      exact ⟨by simp, by
        intro x hx
        rcases List.mem_cons.mp hx with hx | hx
        · exact hx
        · exact hall x hx⟩
    · rintro ⟨-, hall⟩
      exact ⟨(hall w (by simp)).symm, fun x hx => (hall x (by simp [hx])).trans
        (hall w (by simp)).symm⟩

theorem singleValScan_none_of_diff (vals : List (resourceInstanceAddr × CtyValue))
    (hdiv : ∃ p ∈ vals, ∃ q ∈ vals, p.2 ≠ q.2) :
    singleValScan Option.none (vals.map (fun p => p.2)) = none := by
  obtain ⟨p, hp, q, hq, hne⟩ := hdiv
  cases h : singleValScan Option.none (vals.map (fun r => r.2)) with
  | none => rfl
  | some v =>
    have hall := (singleValScan_some_iff v _).mp h
    have hpv : p.2 = v := hall.2 p.2 (List.mem_map.mpr ⟨p, hp, rfl⟩)
    have hqv : q.2 = v := hall.2 q.2 (List.mem_map.mpr ⟨q, hq, rfl⟩)
    exact absurd (hpv.trans hqv.symm) hne

/-- C2: whenever the values gathered for one writable attribute are pairwise
equal across all instances of the resource (deep structural equality — the
hypothesis gives the common value), the synthesis engine emits a single
constant assignment name = value, except that a common null value emits
nothing for that attribute (the omit emission appends nothing to the body);
in particular no dynamic lookup expression is emitted in this case. -/
theorem c2_constant_emission (name : String)
    (vals : List (resourceInstanceAddr × CtyValue)) (v : CtyValue)
    (hne : vals ≠ []) (heq : ∀ p ∈ vals, p.2 = v) :
    generateConfigAttribute name vals =
      some (if v.isNull then AttrEmission.omit else AttrEmission.const name v) := by
  obtain ⟨p, rest, rfl⟩ := List.exists_cons_of_ne_nil hne
  have hp : p.2 = v := heq p (by simp)
  have hscan : singleValScan none ((p :: rest).map (fun q => q.2)) = some v := by
    rw [List.map_cons, singleValScan, hp]
    exact singleValScan_of_all_eq v _ (by
      intro w hw
      obtain ⟨q, hq, rfl⟩ := List.mem_map.mp hw
      exact heq q (by simp [hq]))
  rw [generateConfigAttribute, hscan]

/-- Witness for C2: three instances all reporting size "large" yield the
constant assignment size = "large". -/
theorem c2_witness :
    generateConfigAttribute "size"
      [(⟨⟨"managed", "random_integer", "test"⟩, .int 0⟩, .strV "large"),
       (⟨⟨"managed", "random_integer", "test"⟩, .int 1⟩, .strV "large"),
       (⟨⟨"managed", "random_integer", "test"⟩, .int 2⟩, .strV "large")] =
      some (.const "size" (.strV "large")) := by
  have h := c2_constant_emission "size"
    [(⟨⟨"managed", "random_integer", "test"⟩, .int 0⟩, .strV "large"),
     (⟨⟨"managed", "random_integer", "test"⟩, .int 1⟩, .strV "large"),
     (⟨⟨"managed", "random_integer", "test"⟩, .int 2⟩, .strV "large")]
    (.strV "large") (by decide) (by decide)
  simpa using h

/-- C7: for each successfully normalized target, exactly one config stub is
appended when the bare resource address is not among the declared managed
resources, and none otherwise; the stub does not depend on the number of
instances, its repeat mode is "" (no repetition) for a scalar id, "count"
for a list id and "for_each" for a map id, and its filename drops the final
byte of the declaring file's name when that name ends in .tfy (so main.tfy
becomes main.tf), else defaults to imported.tf. -/
theorem c7_config_stub (existing : List String) (managed : List resourceAddr)
    (t : ImportTarget) (idsVal : IdsVal)
    (hok : prepareRawIDs t.rawIds = Except.ok idsVal) :
    ((planTarget existing managed t).2.1 =
      if managed.contains t.addr then []
      else [⟨t.addr, repeatModeForIds idsVal, targetFilenameFor t.srcFilename⟩])
    ∧ (∀ s, repeatModeForIds (IdsVal.one s) = "")
    ∧ (∀ ss, repeatModeForIds (IdsVal.list ss) = "count")
    ∧ (∀ m, repeatModeForIds (IdsVal.map m) = "for_each")
    ∧ (∀ fn : String, strHasSuffix fn ".tfy" = true → targetFilenameFor fn = strDropLast fn)
    ∧ (∀ fn : String, strHasSuffix fn ".tfy" = false → targetFilenameFor fn = "imported.tf")
    ∧ targetFilenameFor "main.tfy" = "main.tf" := by
  refine ⟨?_, fun s => rfl, fun ss => rfl, fun m => rfl, ?_, ?_, by decide⟩
  · rw [planTarget, hok]
  · intro fn h
    simp [targetFilenameFor, h]
  · intro fn h
    simp [targetFilenameFor, h]

/-- Witness for C7: a list-shaped id for an undeclared resource produces one
stub with repeat mode "count" and filename main.tf. -/
theorem c7_witness :
    (planTarget [] [] ⟨⟨"managed", "random_integer", "test"⟩,
        .list [.str "a", .str "b"], "main.tfy"⟩).2.1 =
      [⟨⟨"managed", "random_integer", "test"⟩, "count", "main.tf"⟩] := by
  have h := c7_config_stub [] [] ⟨⟨"managed", "random_integer", "test"⟩,
    .list [.str "a", .str "b"], "main.tfy"⟩ (.list ["a", "b"]) rfl
  rw [h.1]
  decide

/-- C9: when a config stub's repeat mode is count, the emitted count
meta-argument value is the maximum observed int instance key plus one (the
hypothesis characterizes the maximum; count indices are non-negative); and a
resource with no instances at synthesis time gets a placeholder comment
instead of a synthesized body together with a warning (non-fatal)
diagnostic. -/
theorem c9_count_and_placeholder (instances : List resourceInstanceAddr) (m : Int)
    (hmem : m ∈ intKeys instances) (hub : ∀ i ∈ intKeys instances, i ≤ m)
    (hnn : 0 ≤ m) :
    countMetaArg instances = m + 1
    ∧ ∀ schema : SchemaBlock,
        applyConfigBody [] schema =
          (some [BodyItem.comment
            "# IMPORT-TODO: Write a configuration for hypothetical future instances of this resource.\n"],
           [⟨DiagSeverity.warning, "Resource with no instances"⟩]) := by
  constructor
  · have h1 : countHighest instances = (intKeys instances).foldl max (-1) :=
      countHighest_eq_foldl instances (-1)
    have h2 : (intKeys instances).foldl max (-1) = m := by
      refine le_antisymm ?_ ?_
      · exact foldl_max_le _ _ _ (by omega) hub
      · exact le_foldl_max_of_mem _ _ _ hmem
    unfold countMetaArg
    rw [h1, h2]
  · intro schema
    rfl

/-- Witness for C9: instances with int keys 0 and 2 yield count 3. -/
theorem c9_witness :
    countMetaArg [⟨⟨"managed", "random_integer", "test"⟩, .int 0⟩,
                  ⟨⟨"managed", "random_integer", "test"⟩, .int 2⟩] = 3 := by
  have h := c9_count_and_placeholder
    [⟨⟨"managed", "random_integer", "test"⟩, .int 0⟩,
     ⟨⟨"managed", "random_integer", "test"⟩, .int 2⟩] 2
    (by decide) (by decide) (by decide)
  simpa using h.1

/-- C5: the claim states that when an instance's decoded object lacks the
field for a writable attribute, a null of the attribute's declared type is
substituted non-fatally.  The gather loop in generateConfigBody indeed stores
such a null — its own comment reads "Weird, but we'll allow it to avoid
crashing" — but the store is dead: the next statement unconditionally calls
obj.GetAttr(name), which panics in cty exactly when the object's type lacks
the attribute.  The code therefore crashes on the very input the claim (and
the code's own comment) says it tolerates: gathering from an instance whose
object lacks the required attribute "a" fails (none embeds the panic) instead
of producing the claimed null substitution, and body generation for that
resource fails with it. -/
theorem c5_missing_field_crashes :
    gatherAttrVal (CtyValue.objV .nil) "a" CtyType.string = none
    ∧ gatherAttrVal (CtyValue.objV .nil) "a" CtyType.string ≠
        some (CtyValue.nullV CtyType.string)
    ∧ generateConfigBody (SchemaBlock.mk [("a", ⟨CtyType.string, true, false⟩)] [])
        [(⟨⟨"managed", "random_pet", "x"⟩, .none⟩, CtyValue.objV .nil)] = none := by
  refine ⟨rfl, by decide, ?_⟩
  simp [generateConfigBody, isort, orderedInsert, gatherAttrVal, CtyValue.typeHasAttr,
    CtyValue.getAttr, CtyValuePairs.hasKey, CtyValuePairs.lookup, List.mapM.loop]

/-- Success test on an Except value, modelling a nil Go error check. -/
def exceptOk : Except ε α → Bool
  | .ok _ => true
  | .error _ => false

theorem mapM_prepareRawID_isOk :
    ∀ xs : List RawValue, exceptOk (xs.mapM prepareRawID) = xs.all isStrOrNum
  | [] => rfl
  | x :: rest => by
    have ih := mapM_prepareRawID_isOk rest
    rw [List.mapM_cons, List.all_cons]
    cases x with
    | str s =>
      cases h : rest.mapM prepareRawID with
      | ok v =>
        rw [h] at ih
        show true = (isStrOrNum (.str s) && rest.all isStrOrNum)
        rw [← ih]
        rfl
      | error e =>
        rw [h] at ih
        show false = (isStrOrNum (.str s) && rest.all isStrOrNum)
        rw [← ih]
        rfl
    | num t =>
      cases h : rest.mapM prepareRawID with
      | ok v =>
        rw [h] at ih
        show true = (isStrOrNum (.num t) && rest.all isStrOrNum)
        rw [← ih]
        rfl
      | error e =>
        rw [h] at ih
        show false = (isStrOrNum (.num t) && rest.all isStrOrNum)
        rw [← ih]
        rfl
    | boolV b => rfl
    | nullV => rfl
    | list xs => rfl
    | map m => rfl

theorem mapM_prepareRawID_ok :
    ∀ xs : List RawValue, xs.all isStrOrNum = true →
    xs.mapM prepareRawID = .ok (xs.map rawIdText)
  | [], _ => rfl
  | x :: rest, h => by
    rw [List.all_cons, Bool.and_eq_true] at h
    rw [List.mapM_cons, List.map_cons, mapM_prepareRawID_ok rest h.2]
    cases x with
    | str s => rfl
    | num t => rfl
    | boolV b => exact absurd h.1 (by simp [isStrOrNum])
    | nullV => exact absurd h.1 (by simp [isStrOrNum])
    | list xs => exact absurd h.1 (by simp [isStrOrNum])
    | map m => exact absurd h.1 (by simp [isStrOrNum])

theorem mapM_prepareRawID_pairs_isOk :
    ∀ m : List (String × RawValue),
    exceptOk (m.mapM (fun p => do
      let s ← prepareRawID p.2
      pure ((p.1 : String), s))) = m.all (fun p => isStrOrNum p.2)
  | [] => rfl
  | x :: rest => by
    have ih := mapM_prepareRawID_pairs_isOk rest
    obtain ⟨k, xv⟩ := x
    rw [List.mapM_cons, List.all_cons]
    cases xv with
    | str s =>
      cases h : rest.mapM (fun p => do
          let s ← prepareRawID p.2
          pure ((p.1 : String), s)) with
      | ok v =>
        rw [h] at ih
        show true = (isStrOrNum (.str s) && rest.all (fun p => isStrOrNum p.2))
        rw [← ih]
        rfl
      | error e =>
        rw [h] at ih
        show false = (isStrOrNum (.str s) && rest.all (fun p => isStrOrNum p.2))
        rw [← ih]
        rfl
    | num t =>
      cases h : rest.mapM (fun p => do
          let s ← prepareRawID p.2
          pure ((p.1 : String), s)) with
      | ok v =>
        rw [h] at ih
        show true = (isStrOrNum (.num t) && rest.all (fun p => isStrOrNum p.2))
        rw [← ih]
        rfl
      | error e =>
        rw [h] at ih
        show false = (isStrOrNum (.num t) && rest.all (fun p => isStrOrNum p.2))
        rw [← ih]
        rfl
    | boolV b => rfl
    | nullV => rfl
    | list xs => rfl
    | map mm => rfl

theorem mapM_prepareRawID_pairs_ok :
    ∀ m : List (String × RawValue), m.all (fun p => isStrOrNum p.2) = true →
    m.mapM (fun p => do
      let s ← prepareRawID p.2
      pure ((p.1 : String), s)) = .ok (m.map (fun p => (p.1, rawIdText p.2)))
  | [], _ => rfl
  | x :: rest, h => by
    rw [List.all_cons, Bool.and_eq_true] at h
    rw [List.mapM_cons, List.map_cons, mapM_prepareRawID_pairs_ok rest h.2]
    obtain ⟨k, xv⟩ := x
    cases xv with
    | str s => rfl
    | num t => rfl
    | boolV b => exact absurd h.1 (by simp [isStrOrNum])
    | nullV => exact absurd h.1 (by simp [isStrOrNum])
    | list xs => exact absurd h.1 (by simp [isStrOrNum])
    | map mm => exact absurd h.1 (by simp [isStrOrNum])

/-- Counterexample for C6: an input mixing an int-keyed and a string-keyed
instance within one resource is not rejected with an error; the synthesis
engine silently picks the repetition kind of the first key it examines (here
count.index with square brackets) and emits a hybrid lookup table. -/
theorem c6_counterexample :
    generateConfigAttribute "seed"
      [(⟨⟨"managed", "random_pet", "x"⟩, .int 0⟩, .strV "a"),
       (⟨⟨"managed", "random_pet", "x"⟩, .str "k"⟩, .strV "b")] =
      some (.dynamic "seed" ⟨.square, [.pos (.strV "a"), .keyed "k" (.strV "b")]⟩
        .countIndex) := by
  decide

/-- C6 amended: normalizing one target's ids never produces a mixture of Int
and String keys (every two computed keys share a variant); however input
presenting mixed Int and String keys within one resource is not rejected at
synthesis: the divergent branch silently derives the repetition kind from the
first key examined (count.index for an int first key, each.key for a string
first key) and emits a lookup table built from all keys. -/
theorem c6_uniform_variant_and_silent_mix :
    (∀ (addr : resourceAddr) (v : IdsVal) (p q : resourceInstanceAddr × String),
      p ∈ addr.InstanceIDs v → q ∈ addr.InstanceIDs v →
      p.1.InstanceKey.variant = q.1.InstanceKey.variant)
    ∧ (∀ (name : String) (vals : List (resourceInstanceAddr × CtyValue))
        (p : resourceInstanceAddr × CtyValue),
        (∃ a ∈ vals, ∃ b ∈ vals, a.2 ≠ b.2) →
        vals.head? = some p →
        (∀ i, p.1.InstanceKey = .int i →
          generateConfigAttribute name vals =
            some (buildDynamicLookup name vals .square .countIndex))
        ∧ (∀ s, p.1.InstanceKey = .str s →
          generateConfigAttribute name vals =
            some (buildDynamicLookup name vals .brace .eachKey))) := by
  constructor
  · intro addr v p q hp hq
    cases v with
    | one s =>
      simp only [resourceAddr.InstanceIDs, List.mem_singleton] at hp hq
      rw [hp, hq]
    | list ss =>
      simp only [resourceAddr.InstanceIDs, List.mem_map] at hp hq
      obtain ⟨a, -, rfl⟩ := hp
      obtain ⟨b, -, rfl⟩ := hq
      rfl
    | map m =>
      simp only [resourceAddr.InstanceIDs, List.mem_map] at hp hq
      obtain ⟨a, -, rfl⟩ := hp
      obtain ⟨b, -, rfl⟩ := hq
      rfl
  · intro name vals p hdiv hhead
    have hscan := singleValScan_none_of_diff vals hdiv
    constructor
    · intro i hk
      rw [generateConfigAttribute, hscan, hhead]
      simp [hk]
    · intro s hk
      rw [generateConfigAttribute, hscan, hhead]
      simp [hk]


theorem TableLit.index_square_eq (E : List TableEntry) (i : Int) (vs : List CtyValue)
    (h : E.mapM tableEntryPos? = some vs) :
    TableLit.index ⟨.square, E⟩ (.int i) = if 0 ≤ i then vs[i.toNat]? else none := by
  have hx : TableLit.index ⟨.square, E⟩ (.int i) =
      match E.mapM tableEntryPos? with
      | some vs => if 0 ≤ i then vs[i.toNat]? else none
      | Option.none => none := rfl
  rw [hx, h]

theorem TableLit.index_brace_eq (E : List TableEntry) (s : String)
    (ps : List (String × CtyValue))
    (h : E.mapM tableEntryKeyed? = some ps) :
    TableLit.index ⟨.brace, E⟩ (.str s) =
      (ps.find? (fun q => decide (q.1 = s))).map (fun q => q.2) := by
  have hx : TableLit.index ⟨.brace, E⟩ (.str s) =
      match E.mapM tableEntryKeyed? with
      | some ps => (ps.find? (fun q => decide (q.1 = s))).map (fun q => q.2)
      | Option.none => none := rfl
  rw [hx, h]

/-- Counterexample for C1: two instances with int keys 0 and 2 (one variant,
at least one instance, divergent values) produce a two-element positional
table, and indexing that table by the second instance's own key 2 yields
nothing (out of range) instead of reproducing the recorded value "b": the
round trip fails when the int keys are not contiguous from zero. -/
theorem c1_counterexample :
    generateConfigAttribute "seed"
      [(⟨⟨"managed", "random_integer", "test"⟩, .int 0⟩, .strV "a"),
       (⟨⟨"managed", "random_integer", "test"⟩, .int 2⟩, .strV "b")] =
      some (.dynamic "seed" ⟨.square, [.pos (.strV "a"), .pos (.strV "b")]⟩ .countIndex)
    ∧ TableLit.index ⟨.square, [.pos (.strV "a"), .pos (.strV "b")]⟩ (.int 2) = none := by
  decide

/-- C1 amended: for a divergent attribute (distinct keys, values differing
between two instances) the engine emits a single subscript expression over an
ordered table.  For string keys the emitted table is a keyed mapping whose
keys are strictly ascending and indexing it by each instance's own key
reproduces that instance's value.  For int keys the emitted table is a
positional sequence in ascending key order, and indexing it by each
instance's own key reproduces that instance's value provided the int keys
are exactly the contiguous range 0..n-1 (the counterexample shows the claim
fails without contiguity). -/
theorem c1_divergent_lookup (name : String) (vals : List (resourceInstanceAddr × CtyValue))
    (hnd : (vals.map (fun p => p.1.InstanceKey)).Nodup)
    (hdiv : ∃ a ∈ vals, ∃ b ∈ vals, a.2 ≠ b.2) :
    ((∀ p ∈ vals, p.1.InstanceKey.variant = 2) →
      ∃ entries ps,
        generateConfigAttribute name vals =
          some (.dynamic name ⟨.brace, entries⟩ .eachKey)
        ∧ entries.mapM tableEntryKeyed? = some ps
        ∧ (ps.map (fun q => q.1)).Pairwise (fun a b => a < b)
        ∧ ∀ p ∈ vals, TableLit.index ⟨.brace, entries⟩ p.1.InstanceKey = some p.2)
    ∧ (∀ n : Nat,
      (vals.map (fun p => p.1.InstanceKey)).Perm
        ((List.range n).map (fun i => InstanceKey.int (Int.ofNat i))) →
      ∃ entries vs,
        generateConfigAttribute name vals =
          some (.dynamic name ⟨.square, entries⟩ .countIndex)
        ∧ entries.mapM tableEntryPos? = some vs
        ∧ ∀ p ∈ vals, TableLit.index ⟨.square, entries⟩ p.1.InstanceKey = some p.2) := by
  have hscan := singleValScan_none_of_diff vals hdiv
  have hne : vals ≠ [] := by
    obtain ⟨a, ha, -⟩ := hdiv
    intro h
    subst h
    simp at ha
  obtain ⟨p0, rest, hvals⟩ := List.exists_cons_of_ne_nil hne
  have hhead : vals.head? = some p0 := by rw [hvals]; rfl
  have hp0mem : p0 ∈ vals := by rw [hvals]; simp
  constructor
  · -- string-keyed case
    intro hstr
    obtain ⟨s0, hs0⟩ : ∃ s, p0.1.InstanceKey = .str s := by
      have hv := hstr p0 hp0mem
      cases hk : p0.1.InstanceKey with
      | str s => exact ⟨s, rfl⟩
      | int i => rw [hk] at hv; simp [InstanceKey.variant] at hv
      | none => rw [hk] at hv; simp [InstanceKey.variant] at hv
    have hgen : generateConfigAttribute name vals =
        some (buildDynamicLookup name vals .brace .eachKey) := by
      rw [generateConfigAttribute, hscan, hhead]
      simp [hs0]
    rw [buildDynamicLookup] at hgen
    have hKstr : ∀ k ∈ vals.map (fun p => p.1.InstanceKey), ∃ s, k = InstanceKey.str s := by
      intro k hk
      obtain ⟨p, hp, rfl⟩ := List.mem_map.mp hk
      have hv := hstr p hp
      cases hq : p.1.InstanceKey with
      | str s => exact ⟨s, rfl⟩
      | int i => rw [hq] at hv; simp [InstanceKey.variant] at hv
      | none => rw [hq] at hv; simp [InstanceKey.variant] at hv
    have hSstr : ∀ k ∈ isort (fun a b => !keyLess b a) (vals.map (fun p => p.1.InstanceKey)),
        ∃ s, k = InstanceKey.str s := fun k hk => hKstr k (mem_isort.mp hk)
    have hSnodup : (isort (fun a b => !keyLess b a)
        (vals.map (fun p => p.1.InstanceKey))).Nodup :=
      ((isort_perm _ _).nodup_iff).mpr hnd
    have hmapM := mapM_map_eq_some
      (fun k =>
        match k with
        | InstanceKey.str s =>
          TableEntry.keyed s ((lookupInstKey vals k).getD (CtyValue.nullV .dynamic))
        | k' => TableEntry.pos ((lookupInstKey vals k').getD (CtyValue.nullV .dynamic)))
      tableEntryKeyed?
      (fun k => (keyText k, (lookupInstKey vals k).getD (CtyValue.nullV .dynamic)))
      (isort (fun a b => !keyLess b a) (vals.map (fun p => p.1.InstanceKey)))
      (by
        intro k hk
        obtain ⟨s, rfl⟩ := hSstr k hk
        rfl)
    refine ⟨_, _, hgen, hmapM, ?_, ?_⟩
    · -- strictly ascending mapping keys
      rw [List.map_map]
      have hple : (isort (fun a b => !keyLess b a)
          (vals.map (fun p => p.1.InstanceKey))).Pairwise
          (fun a b => (fun a b => !keyLess b a) a b = true) := by
        refine pairwise_isort _ _ ?_ ?_
        · intro a ha b hb
          obtain ⟨x, rfl⟩ := hKstr a ha
          obtain ⟨y, rfl⟩ := hKstr b hb
          simp only [keyLess_str_str, Bool.not_eq_true', decide_eq_false_iff_not,
            decide_eq_true_eq]
          rcases le_or_lt x y with h | h
          · exact Or.inl (not_lt.mpr h)
          · exact Or.inr (not_lt.mpr (le_of_lt h))
        · intro a ha b hb c hc
          obtain ⟨x, rfl⟩ := hKstr a ha
          obtain ⟨y, rfl⟩ := hKstr b hb
          obtain ⟨z, rfl⟩ := hKstr c hc
          simp only [keyLess_str_str, Bool.not_eq_true', decide_eq_false_iff_not]
          intro h1 h2
          exact not_lt.mpr (le_trans (not_lt.mp h1) (not_lt.mp h2))
      have hcomb := hple.and hSnodup
      rw [List.pairwise_map]
      refine hcomb.imp_of_mem ?_
      intro a b ha hb hab
      obtain ⟨x, rfl⟩ := hSstr a ha
      obtain ⟨y, rfl⟩ := hSstr b hb
      simp only [keyLess_str_str, Bool.not_eq_true', decide_eq_false_iff_not] at hab
      have hxy : x ≤ y := not_lt.mp hab.1
      have hne' : x ≠ y := fun h => hab.2 (by rw [h])
      exact lt_of_le_of_ne hxy hne'
    · -- round trip
      intro p hp
      have hv := hstr p hp
      obtain ⟨s, hs⟩ : ∃ s, p.1.InstanceKey = .str s := by
        cases hq : p.1.InstanceKey with
        | str s => exact ⟨s, rfl⟩
        | int i => rw [hq] at hv; simp [InstanceKey.variant] at hv
        | none => rw [hq] at hv; simp [InstanceKey.variant] at hv
      rw [hs, TableLit.index_brace_eq _ _ _ hmapM]
      have hmem : ((s : String), p.2) ∈
          (isort (fun a b => !keyLess b a) (vals.map (fun p => p.1.InstanceKey))).map
            (fun k => (keyText k, (lookupInstKey vals k).getD (CtyValue.nullV .dynamic))) := by
        refine List.mem_map.mpr ⟨p.1.InstanceKey, ?_, ?_⟩
        · exact mem_isort.mpr (List.mem_map.mpr ⟨p, hp, rfl⟩)
        · rw [lookupInstKey_eq vals p hnd hp, hs]
          rfl
      have hmnd : ((isort (fun a b => !keyLess b a)
          (vals.map (fun p => p.1.InstanceKey))).map
            (fun k => (keyText k, (lookupInstKey vals k).getD (CtyValue.nullV .dynamic)))).map
            (fun q => q.1) |>.Nodup := by
        rw [List.map_map]
        refine List.Nodup.map_on ?_ hSnodup
        intro x hx y hy hxy
        obtain ⟨a, rfl⟩ := hSstr x hx
        obtain ⟨b, rfl⟩ := hSstr y hy
        simp only [Function.comp_apply, keyText] at hxy
        rw [hxy]
      have hfind := find?_eq_of_map_nodup _ (fun q => q.1) ((s : String), p.2) hmnd hmem
      simp only [] at hfind
      rw [hfind]
      rfl
  · -- int-keyed contiguous case
    intro n hpermK
    have hk0K : p0.1.InstanceKey ∈ vals.map (fun p => p.1.InstanceKey) :=
      List.mem_map.mpr ⟨p0, hp0mem, rfl⟩
    obtain ⟨j0, hj0n, hj0⟩ := List.mem_map.mp (hpermK.mem_iff.mp hk0K)
    have hgen : generateConfigAttribute name vals =
        some (buildDynamicLookup name vals .square .countIndex) := by
      rw [generateConfigAttribute, hscan, hhead]
      simp [← hj0]
    rw [buildDynamicLookup] at hgen
    have hKint : ∀ k ∈ vals.map (fun p => p.1.InstanceKey), ∃ j : Nat, j < n ∧
        k = InstanceKey.int (Int.ofNat j) := by
      intro k hk
      obtain ⟨j, hj, rfl⟩ := List.mem_map.mp (hpermK.mem_iff.mp hk)
      exact ⟨j, List.mem_range.mp hj, rfl⟩
    have hsorted_eq : isort (fun a b => !keyLess b a) (vals.map (fun p => p.1.InstanceKey)) =
        (List.range n).map (fun i => InstanceKey.int (Int.ofNat i)) := by
      refine eq_of_perm_of_pairwise (fun a b => !keyLess b a) _ _ ?_ ?_ ?_ ?_
      · intro a ha b hb h1 h2
        obtain ⟨i, -, rfl⟩ := hKint a (mem_isort.mp ha)
        obtain ⟨j, -, rfl⟩ := hKint b (mem_isort.mp hb)
        simp only [keyLess_int_int, Bool.not_eq_true', decide_eq_false_iff_not] at h1 h2
        have : (Int.ofNat i) = Int.ofNat j := le_antisymm (not_lt.mp h1) (not_lt.mp h2)
        rw [this]
      · exact (isort_perm _ _).trans hpermK
      · refine pairwise_isort _ _ ?_ ?_
        · intro a ha b hb
          obtain ⟨i, -, rfl⟩ := hKint a ha
          obtain ⟨j, -, rfl⟩ := hKint b hb
          simp only [keyLess_int_int, Bool.not_eq_true', decide_eq_false_iff_not]
          rcases le_or_lt (Int.ofNat i) (Int.ofNat j) with h | h
          · exact Or.inl (not_lt.mpr h)
          · exact Or.inr (not_lt.mpr (le_of_lt h))
        · intro a ha b hb c hc
          obtain ⟨i, -, rfl⟩ := hKint a ha
          obtain ⟨j, -, rfl⟩ := hKint b hb
          obtain ⟨l, -, rfl⟩ := hKint c hc
          simp only [keyLess_int_int, Bool.not_eq_true', decide_eq_false_iff_not]
          intro h1 h2
          exact not_lt.mpr (le_trans (not_lt.mp h1) (not_lt.mp h2))
      · rw [List.pairwise_map]
        refine (List.pairwise_lt_range n).imp ?_
        intro i j hij
        simp only [keyLess_int_int, Bool.not_eq_true', decide_eq_false_iff_not]
        exact not_lt.mpr (le_of_lt (Int.ofNat_lt.mpr hij))
    rw [hsorted_eq] at hgen
    have hmapM := mapM_map_eq_some
      (fun k =>
        match k with
        | InstanceKey.str s =>
          TableEntry.keyed s ((lookupInstKey vals k).getD (CtyValue.nullV .dynamic))
        | k' => TableEntry.pos ((lookupInstKey vals k').getD (CtyValue.nullV .dynamic)))
      tableEntryPos?
      (fun k => (lookupInstKey vals k).getD (CtyValue.nullV .dynamic))
      ((List.range n).map (fun i => InstanceKey.int (Int.ofNat i)))
      (by
        intro k hk
        obtain ⟨j, hj, rfl⟩ := List.mem_map.mp hk
        rfl)
    refine ⟨_, _, hgen, hmapM, ?_⟩
    intro p hp
    have hpK : p.1.InstanceKey ∈ vals.map (fun p => p.1.InstanceKey) :=
      List.mem_map.mpr ⟨p, hp, rfl⟩
    obtain ⟨j, hjn, hj⟩ := hKint _ hpK
    rw [hj, TableLit.index_square_eq _ _ _ hmapM]
    have hnn : (0 : Int) ≤ Int.ofNat j := Int.ofNat_nonneg j
    rw [if_pos hnn]
    have htoNat : (Int.ofNat j).toNat = j := rfl
    rw [htoNat, List.map_map, List.getElem?_map, List.getElem?_range hjn]
    simp only [Option.map_some', Function.comp_apply]
    rw [← hj, lookupInstKey_eq vals p hnd hp]
    rfl

/-- Witness for C1: three instances report seed values "foo", "bar", "baz"
under int keys 0, 1, 2; the emitted positional table indexed by each key
reproduces each seed value. -/
theorem c1_witness :
    ∃ entries vs,
      generateConfigAttribute "seed"
        [(⟨⟨"managed", "random_integer", "test"⟩, .int 0⟩, .strV "foo"),
         (⟨⟨"managed", "random_integer", "test"⟩, .int 1⟩, .strV "bar"),
         (⟨⟨"managed", "random_integer", "test"⟩, .int 2⟩, .strV "baz")] =
        some (.dynamic "seed" ⟨.square, entries⟩ .countIndex)
      ∧ entries.mapM tableEntryPos? = some vs
      ∧ ∀ p ∈ [((⟨⟨"managed", "random_integer", "test"⟩, .int 0⟩ : resourceInstanceAddr),
                  CtyValue.strV "foo"),
               (⟨⟨"managed", "random_integer", "test"⟩, .int 1⟩, .strV "bar"),
               (⟨⟨"managed", "random_integer", "test"⟩, .int 2⟩, .strV "baz")],
          TableLit.index ⟨.square, entries⟩ p.1.InstanceKey = some p.2 := by
  exact (c1_divergent_lookup "seed"
    [(⟨⟨"managed", "random_integer", "test"⟩, .int 0⟩, .strV "foo"),
     (⟨⟨"managed", "random_integer", "test"⟩, .int 1⟩, .strV "bar"),
     (⟨⟨"managed", "random_integer", "test"⟩, .int 2⟩, .strV "baz")]
    (by decide)
    ⟨(⟨⟨"managed", "random_integer", "test"⟩, .int 0⟩, CtyValue.strV "foo"), by simp,
     (⟨⟨"managed", "random_integer", "test"⟩, .int 1⟩, CtyValue.strV "bar"), by simp,
     by decide⟩).2 3 (by decide)

/-- Witness for C6: applied to the mixed two-instance input, the key
uniformity holds for the normalized scalar id and the mixed synthesis input
produces the silently coerced count.index lookup. -/
theorem c6_witness :
    generateConfigAttribute "seed"
      [(⟨⟨"managed", "random_pet", "y"⟩, .int 0⟩, .strV "a"),
       (⟨⟨"managed", "random_pet", "y"⟩, .str "k"⟩, .strV "b")] =
      some (buildDynamicLookup "seed"
        [(⟨⟨"managed", "random_pet", "y"⟩, .int 0⟩, .strV "a"),
         (⟨⟨"managed", "random_pet", "y"⟩, .str "k"⟩, .strV "b")] .square .countIndex) := by
  have h := (c6_uniform_variant_and_silent_mix).2 "seed"
    [(⟨⟨"managed", "random_pet", "y"⟩, .int 0⟩, .strV "a"),
     (⟨⟨"managed", "random_pet", "y"⟩, .str "k"⟩, .strV "b")]
    (⟨⟨"managed", "random_pet", "y"⟩, .int 0⟩, .strV "a")
    ⟨(⟨⟨"managed", "random_pet", "y"⟩, .int 0⟩, CtyValue.strV "a"), by simp,
     (⟨⟨"managed", "random_pet", "y"⟩, .str "k"⟩, CtyValue.strV "b"), by simp,
     by decide⟩ rfl
  exact h.1 0 rfl

/-- Claim-side instance key order for the plan sort: any Int key is less
than any String key, Int keys compare numerically, String keys
lexicographically; two no-key entries tie.  The claim leaves a no-key entry
unordered against a keyed one; such pairs never occur within one resource
under the one-variant invariant. -/
def specKeyLe : InstanceKey → InstanceKey → Prop
  | .int i, .int j => i ≤ j
  | .int _, .str _ => True
  | .str _, .int _ => False
  | .str s, .str t => s ≤ t
  | .none, .none => True
  | _, _ => False

/-- Claim-side order on state bindings: ascending by resource mode, type,
name, then instance key. -/
def specStateLe (a b : importPlanState) : Prop :=
  a.Target.Resource.Mode < b.Target.Resource.Mode
  ∨ (a.Target.Resource.Mode = b.Target.Resource.Mode ∧
      (a.Target.Resource.TypeName < b.Target.Resource.TypeName
      ∨ (a.Target.Resource.TypeName = b.Target.Resource.TypeName ∧
          (a.Target.Resource.Name < b.Target.Resource.Name
          ∨ (a.Target.Resource.Name = b.Target.Resource.Name ∧
              specKeyLe a.Target.InstanceKey b.Target.InstanceKey)))))

/-- Claim-side order on config stubs: ascending by resource mode, type,
name. -/
def specConfigLe (a b : importPlanConfig) : Prop :=
  a.Target.Mode < b.Target.Mode
  ∨ (a.Target.Mode = b.Target.Mode ∧
      (a.Target.TypeName < b.Target.TypeName
      ∨ (a.Target.TypeName = b.Target.TypeName ∧ a.Target.Name ≤ b.Target.Name)))

/-- Lexicographic embedding of an instance key, used to reason about the
transliterated comparators: variant rank first, then the int payload, then
the string payload. -/
def keyEmb : InstanceKey → ℕ ×ₗ (Int ×ₗ String)
  | .none => toLex (0, toLex (0, ""))
  | .int i => toLex (1, toLex (i, ""))
  | .str s => toLex (2, toLex (0, s))

def stateEmb (a : importPlanState) :
    String ×ₗ (String ×ₗ (String ×ₗ (ℕ ×ₗ (Int ×ₗ String)))) :=
  toLex (a.Target.Resource.Mode, toLex (a.Target.Resource.TypeName,
    toLex (a.Target.Resource.Name, keyEmb a.Target.InstanceKey)))

def configEmb (a : importPlanConfig) : String ×ₗ (String ×ₗ String) :=
  toLex (a.Target.Mode, toLex (a.Target.TypeName, a.Target.Name))

theorem resourceAddr_ext {x y : resourceAddr} (h1 : x.Mode = y.Mode)
    (h2 : x.TypeName = y.TypeName) (h3 : x.Name = y.Name) : x = y := by
  cases x
  cases y
  simp_all

theorem keyEmb_inj : ∀ k1 k2 : InstanceKey, keyEmb k1 = keyEmb k2 → k1 = k2 := by
  intro k1 k2 h
  cases k1 <;> cases k2 <;> simp_all [keyEmb, Prod.ext_iff]

theorem keyEmb_lt_int (i j : Int) : keyEmb (.int i) < keyEmb (.int j) ↔ i < j := by
  simp [keyEmb, Prod.Lex.lt_iff, lt_irrefl]

theorem keyEmb_lt_str (s t : String) : keyEmb (.str s) < keyEmb (.str t) ↔ s < t := by
  simp [keyEmb, Prod.Lex.lt_iff, lt_irrefl]

theorem planKeyLess_int_int (i j : Int) :
    planKeyLess (.int i) (.int j) = decide (i < j) := rfl

theorem planKeyLess_str_str (s t : String) :
    planKeyLess (.str s) (.str t) = decide (s < t) := rfl

theorem stateLess_iff_emb (a b : importPlanState)
    (hv : a.Target.Resource = b.Target.Resource →
      a.Target.InstanceKey.variant = b.Target.InstanceKey.variant) :
    (stateLess a b = true ↔ stateEmb a < stateEmb b) := by
  unfold stateLess stateEmb
  by_cases hM : a.Target.Resource.Mode = b.Target.Resource.Mode
  · rw [if_neg (by simp [hM]), Prod.Lex.lt_iff]
    simp only [hM, lt_self_iff_false, eq_self_iff_true, true_and, false_or]
    by_cases hT : a.Target.Resource.TypeName = b.Target.Resource.TypeName
    · rw [if_neg (by simp [hT]), Prod.Lex.lt_iff]
      simp only [hT, lt_self_iff_false, eq_self_iff_true, true_and, false_or]
      by_cases hN : a.Target.Resource.Name = b.Target.Resource.Name
      · rw [if_neg (by simp [hN]), Prod.Lex.lt_iff]
        simp only [hN, lt_self_iff_false, eq_self_iff_true, true_and, false_or]
        have hres := resourceAddr_ext hM hT hN
        have hvv := hv hres
        by_cases hK : a.Target.InstanceKey = b.Target.InstanceKey
        · rw [if_neg (by simp [hK]), hK]
          simp [lt_irrefl]
        · rw [if_pos hK]
          cases ha : a.Target.InstanceKey with
          | none =>
            cases hb : b.Target.InstanceKey with
            | none => exact absurd (ha.trans hb.symm) hK
            | int j => rw [ha, hb] at hvv; simp [InstanceKey.variant] at hvv
            | str t => rw [ha, hb] at hvv; simp [InstanceKey.variant] at hvv
          | int i =>
            cases hb : b.Target.InstanceKey with
            | none => rw [ha, hb] at hvv; simp [InstanceKey.variant] at hvv
            | str t => rw [ha, hb] at hvv; simp [InstanceKey.variant] at hvv
            | int j =>
              rw [planKeyLess_int_int, keyEmb_lt_int]
              exact decide_eq_true_iff
          | str s =>
            cases hb : b.Target.InstanceKey with
            | none => rw [ha, hb] at hvv; simp [InstanceKey.variant] at hvv
            | int j => rw [ha, hb] at hvv; simp [InstanceKey.variant] at hvv
            | str t =>
              rw [planKeyLess_str_str, keyEmb_lt_str]
              exact decide_eq_true_iff
      · rw [if_pos hN, Prod.Lex.lt_iff]
        simp [hN, decide_eq_true_iff]
    · rw [if_pos hT, Prod.Lex.lt_iff]
      simp [hT, decide_eq_true_iff]
  · rw [if_pos hM, Prod.Lex.lt_iff]
    simp [hM, decide_eq_true_iff]

theorem configLess_iff_emb (a b : importPlanConfig) :
    (configLess a b = true ↔ configEmb a < configEmb b) := by
  unfold configLess configEmb
  by_cases hM : a.Target.Mode = b.Target.Mode
  · rw [if_neg (by simp [hM]), Prod.Lex.lt_iff]
    simp only [hM, lt_self_iff_false, eq_self_iff_true, true_and, false_or]
    by_cases hT : a.Target.TypeName = b.Target.TypeName
    · rw [if_neg (by simp [hT]), Prod.Lex.lt_iff]
      simp only [hT, lt_self_iff_false, eq_self_iff_true, true_and, false_or]
      by_cases hN : a.Target.Name = b.Target.Name
      · rw [if_neg (by simp [hN]), hN]
        simp [lt_irrefl]
      · rw [if_pos hN]
        simp [decide_eq_true_iff]
    · rw [if_pos hT, Prod.Lex.lt_iff]
      simp [hT, decide_eq_true_iff]
  · rw [if_pos hM, Prod.Lex.lt_iff]
    simp [hM, decide_eq_true_iff]

theorem specKeyLe_refl : ∀ k : InstanceKey, specKeyLe k k
  | .none => trivial
  | .int i => le_refl i
  | .str s => le_refl s

theorem specStateLe_of_emb_le (a b : importPlanState)
    (hv : a.Target.Resource = b.Target.Resource →
      a.Target.InstanceKey.variant = b.Target.InstanceKey.variant)
    (h : stateEmb a ≤ stateEmb b) : specStateLe a b := by
  rcases lt_or_eq_of_le h with hlt | heq
  · unfold stateEmb at hlt
    rw [Prod.Lex.lt_iff] at hlt
    rcases hlt with h1 | ⟨h1, h2⟩
    · exact Or.inl h1
    · rw [Prod.Lex.lt_iff] at h2
      rcases h2 with h2 | ⟨h2, h3⟩
      · exact Or.inr ⟨h1, Or.inl h2⟩
      · rw [Prod.Lex.lt_iff] at h3
        rcases h3 with h3 | ⟨h3, h4⟩
        · exact Or.inr ⟨h1, Or.inr ⟨h2, Or.inl h3⟩⟩
        · have hres := resourceAddr_ext h1 h2 h3
          have hvv := hv hres
          refine Or.inr ⟨h1, Or.inr ⟨h2, Or.inr ⟨h3, ?_⟩⟩⟩
          cases ha : a.Target.InstanceKey with
          | none =>
            cases hb : b.Target.InstanceKey with
            | none => exact trivial
            | int j => rw [ha, hb] at hvv; simp [InstanceKey.variant] at hvv
            | str t => rw [ha, hb] at hvv; simp [InstanceKey.variant] at hvv
          | int i =>
            cases hb : b.Target.InstanceKey with
            | none => rw [ha, hb] at hvv; simp [InstanceKey.variant] at hvv
            | str t => rw [ha, hb] at hvv; simp [InstanceKey.variant] at hvv
            | int j =>
              rw [ha, hb] at h4
              exact le_of_lt ((keyEmb_lt_int i j).mp h4)
          | str s =>
            cases hb : b.Target.InstanceKey with
            | none => rw [ha, hb] at hvv; simp [InstanceKey.variant] at hvv
            | int j => rw [ha, hb] at hvv; simp [InstanceKey.variant] at hvv
            | str t =>
              rw [ha, hb] at h4
              exact le_of_lt ((keyEmb_lt_str s t).mp h4)
  · unfold stateEmb at heq
    have h1 := toLex.injective heq
    obtain ⟨hM, h2⟩ := Prod.ext_iff.mp h1
    have h3 := toLex.injective h2
    obtain ⟨hT, h4⟩ := Prod.ext_iff.mp h3
    have h5 := toLex.injective h4
    obtain ⟨hN, h6⟩ := Prod.ext_iff.mp h5
    have hkeq := keyEmb_inj _ _ h6
    refine Or.inr ⟨hM, Or.inr ⟨hT, Or.inr ⟨hN, ?_⟩⟩⟩
    rw [hkeq]
    exact specKeyLe_refl _

theorem specConfigLe_of_emb_le (a b : importPlanConfig)
    (h : configEmb a ≤ configEmb b) : specConfigLe a b := by
  rcases lt_or_eq_of_le h with hlt | heq
  · unfold configEmb at hlt
    rw [Prod.Lex.lt_iff] at hlt
    rcases hlt with h1 | ⟨h1, h2⟩
    · exact Or.inl h1
    · rw [Prod.Lex.lt_iff] at h2
      rcases h2 with h2 | ⟨h2, h3⟩
      · exact Or.inr ⟨h1, Or.inl h2⟩
      · exact Or.inr ⟨h1, Or.inr ⟨h2, le_of_lt h3⟩⟩
  · unfold configEmb at heq
    have h1 := toLex.injective heq
    obtain ⟨hM, h2⟩ := Prod.ext_iff.mp h1
    have h3 := toLex.injective h2
    obtain ⟨hT, hN⟩ := Prod.ext_iff.mp h3
    exact Or.inr ⟨hM, Or.inr ⟨hT, le_of_eq hN⟩⟩

theorem leS_iff_emb (a b : importPlanState)
    (hv : b.Target.Resource = a.Target.Resource →
      b.Target.InstanceKey.variant = a.Target.InstanceKey.variant) :
    ((!stateLess b a) = true ↔ stateEmb a ≤ stateEmb b) := by
  rw [Bool.not_eq_true']
  constructor
  · intro h
    by_contra hc
    rw [not_le] at hc
    have := (stateLess_iff_emb b a hv).mpr hc
    rw [h] at this
    cases this
  · intro h
    cases hx : stateLess b a with
    | false => rfl
    | true =>
      have := (stateLess_iff_emb b a hv).mp hx
      exact absurd this (not_lt.mpr h)

theorem leC_iff_emb (a b : importPlanConfig) :
    ((!configLess b a) = true ↔ configEmb a ≤ configEmb b) := by
  rw [Bool.not_eq_true']
  constructor
  · intro h
    by_contra hc
    rw [not_le] at hc
    have := (configLess_iff_emb b a).mpr hc
    rw [h] at this
    cases this
  · intro h
    cases hx : configLess b a with
    | false => rfl
    | true =>
      have := (configLess_iff_emb b a).mp hx
      exact absurd this (not_lt.mpr h)

theorem filterMap_if_eq_filter_map {α β : Type _} (f : α → β) (c : α → Bool) :
    ∀ l : List α, l.filterMap (fun x => if c x then none else some (f x)) =
      (l.filter (fun x => !c x)).map f
  | [] => rfl
  | x :: rest => by
    by_cases h : c x = true
    · simp [List.filterMap_cons, List.filter_cons, h, filterMap_if_eq_filter_map f c rest]
    · simp [List.filterMap_cons, List.filter_cons, h, filterMap_if_eq_filter_map f c rest]

theorem mem_InstanceIDs_resource {addr : resourceAddr} {v : IdsVal}
    {a : resourceInstanceAddr} {id : String} (h : (a, id) ∈ addr.InstanceIDs v) :
    a.Resource = addr := by
  cases v with
  | one s =>
    simp only [resourceAddr.InstanceIDs, List.mem_singleton, Prod.mk.injEq] at h
    rw [h.1]
  | list ss =>
    simp only [resourceAddr.InstanceIDs, List.mem_map, Prod.mk.injEq] at h
    obtain ⟨p, -, hp, -⟩ := h
    rw [← hp]
  | map m =>
    simp only [resourceAddr.InstanceIDs, List.mem_map, Prod.mk.injEq] at h
    obtain ⟨p, -, hp, -⟩ := h
    rw [← hp]

theorem InstanceIDs_keys_nodup (addr : resourceAddr) (v : IdsVal)
    (hk : idsKeysNodup v) :
    ((addr.InstanceIDs v).map (fun p => p.1)).Nodup := by
  cases v with
  | one s => simp [resourceAddr.InstanceIDs]
  | list ss =>
    simp only [resourceAddr.InstanceIDs, List.map_map]
    have hcomp : ((fun p => p.1) ∘ fun p : Nat × String =>
        ((⟨addr, .int p.1⟩ : resourceInstanceAddr), p.2)) =
        ((fun i : Nat => (⟨addr, .int i⟩ : resourceInstanceAddr)) ∘ Prod.fst) := rfl
    rw [hcomp, ← List.map_map, List.enum_map_fst]
    refine List.Nodup.map ?_ (List.nodup_range ss.length)
    intro i j hij
    simp only [resourceInstanceAddr.mk.injEq, InstanceKey.int.injEq] at hij
    exact Int.ofNat_inj.mp (by exact_mod_cast hij.2)
  | map m =>
    simp only [resourceAddr.InstanceIDs, List.map_map]
    have hcomp : ((fun p => p.1) ∘ fun p : String × String =>
        ((⟨addr, .str p.1⟩ : resourceInstanceAddr), p.2)) =
        ((fun k : String => (⟨addr, .str k⟩ : resourceInstanceAddr)) ∘ Prod.fst) := rfl
    rw [hcomp, ← List.map_map]
    refine List.Nodup.map ?_ hk
    intro i j hij
    simp only [resourceInstanceAddr.mk.injEq, InstanceKey.str.injEq] at hij
    exact hij.2

theorem planTarget_state_eq (existing : List String) (managed : List resourceAddr)
    (t : ImportTarget) (v : IdsVal) (hok : prepareRawIDs t.rawIds = .ok v) :
    (planTarget existing managed t).1 =
      ((t.addr.InstanceIDs v).filter
        (fun p => !existing.any (fun e => e = p.1.string))).map
        (fun p => ⟨p.1, p.2⟩) := by
  rw [planTarget, hok]
  exact filterMap_if_eq_filter_map _ _ _

theorem mem_planTarget_state (existing : List String) (managed : List resourceAddr)
    (t : ImportTarget) (v : IdsVal) (hok : prepareRawIDs t.rawIds = .ok v)
    (a : resourceInstanceAddr) (id : String) :
    ((⟨a, id⟩ : importPlanState) ∈ (planTarget existing managed t).1 ↔
      ((a, id) ∈ t.addr.InstanceIDs v ∧ a.string ∉ existing)) := by
  rw [planTarget_state_eq existing managed t v hok]
  rw [List.mem_map]
  constructor
  · rintro ⟨p, hp, hmk⟩
    rw [List.mem_filter] at hp
    have hpa : p.1 = a ∧ p.2 = id := by
      have := importPlanState.mk.injEq p.1 p.2 a id ▸ hmk
      simpa using hmk
    obtain ⟨h1, h2⟩ := hpa
    refine ⟨by rw [← h1, ← h2]; exact (Prod.mk.eta (p := p)) ▸ hp.1, ?_⟩
    intro hin
    have : existing.any (fun e => e = p.1.string) = true :=
      List.any_eq_true.mpr ⟨a.string, hin, by rw [h1]; simp⟩
    rw [this] at hp
    exact absurd hp.2 (by simp)
  · rintro ⟨hmem, hnotin⟩
    refine ⟨(a, id), List.mem_filter.mpr ⟨hmem, ?_⟩, rfl⟩
    rw [Bool.not_eq_true', List.any_eq_false]
    intro e he hea
    exact hnotin ((of_decide_eq_true hea) ▸ he)

/-- C3: over targets whose ids normalize successfully (with the Go-map
guarantee that a map of ids has distinct keys, and targets drawn from a map
keyed by distinct address strings), the plan's state-binding list contains an
entry exactly for each computed instance address whose canonical string form
does not equal the address string of any tracked instance, and no two entries
share an instance address. -/
theorem c3_state_bindings (ts : List ImportTarget) (existing : List String)
    (managed : List resourceAddr)
    (hstr : (ts.map (fun t => t.addr.string)).Nodup)
    (hok : ∀ t ∈ ts, ∃ v, prepareRawIDs t.rawIds = .ok v ∧ idsKeysNodup v) :
    (∀ (a : resourceInstanceAddr) (id : String),
      ((⟨a, id⟩ : importPlanState) ∈ (planImporting ts existing managed).1.ToState ↔
        ((∃ t ∈ ts, ∃ v, prepareRawIDs t.rawIds = .ok v ∧ (a, id) ∈ t.addr.InstanceIDs v)
          ∧ a.string ∉ existing)))
    ∧ (((planImporting ts existing managed).1.ToState).map (fun s => s.Target)).Nodup := by
  have hstate : (planImporting ts existing managed).1.ToState =
      ((ts.map (planTarget existing managed)).map (fun r => r.1)).flatten := rfl
  constructor
  · intro a id
    rw [hstate, List.mem_flatten]
    constructor
    · rintro ⟨l, hl, hml⟩
      obtain ⟨r, hr, rfl⟩ := List.mem_map.mp hl
      obtain ⟨t, ht, rfl⟩ := List.mem_map.mp hr
      obtain ⟨v, hv, hkv⟩ := hok t ht
      have := (mem_planTarget_state existing managed t v hv a id).mp hml
      exact ⟨⟨t, ht, v, hv, this.1⟩, this.2⟩
    · rintro ⟨⟨t, ht, v, hv, hmem⟩, hnotin⟩
      refine ⟨(planTarget existing managed t).1, ?_, ?_⟩
      · exact List.mem_map.mpr ⟨planTarget existing managed t,
          List.mem_map.mpr ⟨t, ht, rfl⟩, rfl⟩
      · exact (mem_planTarget_state existing managed t v hv a id).mpr ⟨hmem, hnotin⟩
  · rw [hstate]
    have hmapflat : (((ts.map (planTarget existing managed)).map (fun r => r.1)).flatten).map
        (fun s => s.Target) =
        (((ts.map (planTarget existing managed)).map (fun r => r.1)).map
          (fun l => l.map (fun s => s.Target))).flatten := by
      rw [List.map_flatten]
    rw [hmapflat]
    rw [List.nodup_flatten]
    constructor
    · intro l hl
      simp only [List.map_map, List.mem_map] at hl
      obtain ⟨t, ht, rfl⟩ := hl
      obtain ⟨v, hv, hkv⟩ := hok t ht
      simp only [Function.comp_apply]
      rw [planTarget_state_eq existing managed t v hv, List.map_map]
      have hsub : ((t.addr.InstanceIDs v).filter
          (fun p => !existing.any (fun e => e = p.1.string))).Sublist
          (t.addr.InstanceIDs v) := List.filter_sublist _
      have hTfst : ((fun s : importPlanState => s.Target) ∘
          (fun p : resourceInstanceAddr × String => (⟨p.1, p.2⟩ : importPlanState))) =
          (fun p : resourceInstanceAddr × String => p.1) := rfl
      rw [hTfst]
      exact List.Nodup.sublist (List.Sublist.map _ hsub)
        (InstanceIDs_keys_nodup t.addr v hkv)
    · simp only [List.map_map]
      rw [List.pairwise_map]
      have hpw : ts.Pairwise (fun t1 t2 => t1.addr.string ≠ t2.addr.string) :=
        List.pairwise_map.mp hstr
      refine hpw.imp_of_mem ?_
      intro t1 t2 ht1 ht2 hne a ha1 ha2
      obtain ⟨v1, hv1, -⟩ := hok t1 ht1
      obtain ⟨v2, hv2, -⟩ := hok t2 ht2
      simp only [Function.comp_apply] at ha1 ha2
      rw [planTarget_state_eq existing managed t1 v1 hv1, List.map_map] at ha1
      rw [planTarget_state_eq existing managed t2 v2 hv2, List.map_map] at ha2
      obtain ⟨p1, hp1, hpa1⟩ := List.mem_map.mp ha1
      obtain ⟨p2, hp2, hpa2⟩ := List.mem_map.mp ha2
      have hr1 : a.Resource = t1.addr := by
        rw [← hpa1]
        exact mem_InstanceIDs_resource
          (((Prod.mk.eta (p := p1)) ▸ (List.mem_filter.mp hp1).1))
      have hr2 : a.Resource = t2.addr := by
        rw [← hpa2]
        exact mem_InstanceIDs_resource
          (((Prod.mk.eta (p := p2)) ▸ (List.mem_filter.mp hp2).1))
      exact hne (by rw [← hr1, hr2])

/-- Witness for C3: one target with a two-element list id, one of whose
instance addresses is already tracked, plans exactly the untracked binding,
and the planned targets are distinct. -/
theorem c3_witness :
    ((⟨⟨⟨"managed", "random_pet", "x"⟩, .int 1⟩, "b"⟩ : importPlanState) ∈
      (planImporting [⟨⟨"managed", "random_pet", "x"⟩,
          .list [.str "a", .str "b"], "main.tfy"⟩]
        ["random_pet.x[0]"] []).1.ToState)
    ∧ (((planImporting [⟨⟨"managed", "random_pet", "x"⟩,
          .list [.str "a", .str "b"], "main.tfy"⟩]
        ["random_pet.x[0]"] []).1.ToState).map (fun s => s.Target)).Nodup := by
  have h := c3_state_bindings
    [⟨⟨"managed", "random_pet", "x"⟩, .list [.str "a", .str "b"], "main.tfy"⟩]
    ["random_pet.x[0]"] [] (by decide)
    (by
      intro t ht
      rw [List.mem_singleton] at ht
      subst ht
      exact ⟨.list ["a", "b"], rfl, trivial⟩)
  refine ⟨(h.1 ⟨⟨"managed", "random_pet", "x"⟩, .int 1⟩ "b").mpr ⟨?_, ?_⟩, h.2⟩
  · exact ⟨⟨⟨"managed", "random_pet", "x"⟩, .list [.str "a", .str "b"], "main.tfy"⟩,
      by simp, .list ["a", "b"], rfl, by decide⟩
  · decide

/-- C8: id normalization succeeds exactly when the raw value is a string, a
number, a list all of whose elements are strings or numbers, or a map all of
whose values are strings or numbers; every accepted id resolves to a string
(a number to its canonical decimal text, which the embedding carries with the
number); and a target whose normalization fails contributes one error
diagnostic and no plan actions, while all other targets are still
processed. -/
theorem c8_id_normalization :
    (∀ raw : RawValue, exceptOk (prepareRawIDs raw) = specAcceptableIds raw)
    ∧ (∀ s, prepareRawIDs (.str s) = .ok (.one s))
    ∧ (∀ t, prepareRawIDs (.num t) = .ok (.one t))
    ∧ (∀ xs, specAcceptableIds (.list xs) = true →
        prepareRawIDs (.list xs) = .ok (.list (xs.map rawIdText)))
    ∧ (∀ m : List (String × RawValue), specAcceptableIds (.map m) = true →
        prepareRawIDs (.map m) = .ok (.map (m.map (fun p => (p.1, rawIdText p.2)))))
    ∧ (∀ (ts1 ts2 : List ImportTarget) (bad : ImportTarget)
        (existing : List String) (managed : List resourceAddr),
        exceptOk (prepareRawIDs bad.rawIds) = false →
        (planImporting (ts1 ++ bad :: ts2) existing managed).1 =
          (planImporting (ts1 ++ ts2) existing managed).1
        ∧ (planImporting (ts1 ++ bad :: ts2) existing managed).2 =
          (planImporting ts1 existing managed).2 ++
            (⟨.error, "Invalid id value"⟩ :: (planImporting ts2 existing managed).2)) := by
  refine ⟨?_, fun s => rfl, fun t => rfl, ?_, ?_, ?_⟩
  · intro raw
    cases raw with
    | str s => rfl
    | num t => rfl
    | boolV b => rfl
    | nullV => rfl
    | list xs =>
      have h := mapM_prepareRawID_isOk xs
      show exceptOk (prepareRawIDs (.list xs)) = xs.all isStrOrNum
      rw [← h]
      rw [prepareRawIDs]
      cases hm : xs.mapM prepareRawID with
      | ok v => rfl
      | error e => rfl
    | map m =>
      have h := mapM_prepareRawID_pairs_isOk m
      show exceptOk (prepareRawIDs (.map m)) = m.all (fun p => isStrOrNum p.2)
      rw [← h]
      rw [prepareRawIDs]
      cases hm : m.mapM (fun p => do
          let s ← prepareRawID p.2
          pure ((p.1 : String), s)) with
      | ok v => rfl
      | error e => rfl
  · intro xs hacc
    rw [prepareRawIDs, mapM_prepareRawID_ok xs hacc]
    rfl
  · intro m hacc
    rw [prepareRawIDs, mapM_prepareRawID_pairs_ok m hacc]
    rfl
  · intro ts1 ts2 bad existing managed hbad
    obtain ⟨e, he⟩ : ∃ e, prepareRawIDs bad.rawIds = .error e := by
      cases h : prepareRawIDs bad.rawIds with
      | ok v => rw [h] at hbad; exact absurd hbad (by simp [exceptOk])
      | error e => exact ⟨e, rfl⟩
    have hplanbad : planTarget existing managed bad =
        ([], [], [⟨.error, "Invalid id value"⟩]) := by
      rw [planTarget, he]
    constructor
    · simp [planImporting, hplanbad]
    · simp [planImporting, hplanbad]

/-- Witness for C8: a run over a bool-id target followed by a string-id
target plans exactly what the string-id target alone plans, with one error
diagnostic recorded for the bad target. -/
theorem c8_witness :
    (planImporting [⟨⟨"managed", "random_pet", "b"⟩, .boolV true, "main.tfy"⟩,
        ⟨⟨"managed", "random_pet", "g"⟩, .str "x", "main.tfy"⟩] [] []).1 =
      (planImporting [⟨⟨"managed", "random_pet", "g"⟩, .str "x", "main.tfy"⟩] [] []).1
    ∧ (planImporting [⟨⟨"managed", "random_pet", "b"⟩, .boolV true, "main.tfy"⟩,
        ⟨⟨"managed", "random_pet", "g"⟩, .str "x", "main.tfy"⟩] [] []).2 =
      (planImporting [] [] []).2 ++
        (⟨.error, "Invalid id value"⟩ ::
          (planImporting [⟨⟨"managed", "random_pet", "g"⟩, .str "x", "main.tfy"⟩] [] []).2) :=
  c8_id_normalization.2.2.2.2.2 []
    [⟨⟨"managed", "random_pet", "g"⟩, .str "x", "main.tfy"⟩]
    ⟨⟨"managed", "random_pet", "b"⟩, .boolV true, "main.tfy"⟩ [] [] rfl

/-- C4: for an import plan satisfying the one-key-variant-per-resource
invariant, the Sort step reorders the state bindings into a list ascending by
(resource mode, type, name, instance key) — any Int key before any String
key, Int keys numerically, String keys lexicographically — reorders the
config stubs ascending by (mode, type, name), and is idempotent: sorting an
already-sorted plan leaves it unchanged. -/
theorem c4_sort_order_and_idempotent (p : importPlan)
    (hvar : ∀ a ∈ p.ToState, ∀ b ∈ p.ToState,
      a.Target.Resource = b.Target.Resource →
      a.Target.InstanceKey.variant = b.Target.InstanceKey.variant) :
    ((p.sortPlan).ToState.Perm p.ToState)
    ∧ (p.sortPlan).ToState.Pairwise specStateLe
    ∧ ((p.sortPlan).ToConfig.Perm p.ToConfig)
    ∧ (p.sortPlan).ToConfig.Pairwise specConfigLe
    ∧ (p.sortPlan).sortPlan = p.sortPlan := by
  have hpwS : (isort (fun a b => !stateLess b a) p.ToState).Pairwise
      (fun x y => (fun a b => !stateLess b a) x y = true) := by
    refine pairwise_isort _ _ ?_ ?_
    · intro a ha b hb
      rcases le_total (stateEmb a) (stateEmb b) with h | h
      · exact Or.inl ((leS_iff_emb a b (hvar b hb a ha)).mpr h)
      · exact Or.inr ((leS_iff_emb b a (hvar a ha b hb)).mpr h)
    · intro x hx y hy z hz h1 h2
      have h1' := (leS_iff_emb x y (hvar y hy x hx)).mp h1
      have h2' := (leS_iff_emb y z (hvar z hz y hy)).mp h2
      exact (leS_iff_emb x z (hvar z hz x hx)).mpr (le_trans h1' h2')
  have hpwC : (isort (fun a b => !configLess b a) p.ToConfig).Pairwise
      (fun x y => (fun a b => !configLess b a) x y = true) := by
    refine pairwise_isort _ _ ?_ ?_
    · intro a _ b _
      rcases le_total (configEmb a) (configEmb b) with h | h
      · exact Or.inl ((leC_iff_emb a b).mpr h)
      · exact Or.inr ((leC_iff_emb b a).mpr h)
    · intro x _ y _ z _ h1 h2
      exact (leC_iff_emb x z).mpr
        (le_trans ((leC_iff_emb x y).mp h1) ((leC_iff_emb y z).mp h2))
  refine ⟨isort_perm _ _, ?_, isort_perm _ _, ?_, ?_⟩
  · refine hpwS.imp_of_mem ?_
    intro a b ha hb hab
    have ha' := mem_isort.mp ha
    have hb' := mem_isort.mp hb
    exact specStateLe_of_emb_le a b (hvar a ha' b hb')
      ((leS_iff_emb a b (hvar b hb' a ha')).mp hab)
  · refine hpwC.imp_of_mem ?_
    intro a b _ _ hab
    exact specConfigLe_of_emb_le a b ((leC_iff_emb a b).mp hab)
  · show importPlan.sortPlan ⟨isort (fun a b => !stateLess b a) p.ToState,
      isort (fun a b => !configLess b a) p.ToConfig⟩ = _
    unfold importPlan.sortPlan
    rw [importPlan.mk.injEq]
    exact ⟨isort_of_pairwise _ _ hpwS, isort_of_pairwise _ _ hpwC⟩

/-- Witness for C4: a two-binding, two-stub plan given in descending order
is permuted into ascending order and sorting it again changes nothing. -/
theorem c4_witness :
    ((importPlan.mk
        [⟨⟨⟨"managed", "bbb", "x"⟩, .int 1⟩, "i1"⟩,
         ⟨⟨⟨"managed", "aaa", "x"⟩, .int 0⟩, "i0"⟩]
        [⟨⟨"managed", "bbb", "x"⟩, "count", "f.tf"⟩,
         ⟨⟨"managed", "aaa", "x"⟩, "", "g.tf"⟩]).sortPlan.ToState.Perm
      [⟨⟨⟨"managed", "bbb", "x"⟩, .int 1⟩, "i1"⟩,
       ⟨⟨⟨"managed", "aaa", "x"⟩, .int 0⟩, "i0"⟩])
    ∧ ((importPlan.mk
        [⟨⟨⟨"managed", "bbb", "x"⟩, .int 1⟩, "i1"⟩,
         ⟨⟨⟨"managed", "aaa", "x"⟩, .int 0⟩, "i0"⟩]
        [⟨⟨"managed", "bbb", "x"⟩, "count", "f.tf"⟩,
         ⟨⟨"managed", "aaa", "x"⟩, "", "g.tf"⟩]).sortPlan.sortPlan =
      (importPlan.mk
        [⟨⟨⟨"managed", "bbb", "x"⟩, .int 1⟩, "i1"⟩,
         ⟨⟨⟨"managed", "aaa", "x"⟩, .int 0⟩, "i0"⟩]
        [⟨⟨"managed", "bbb", "x"⟩, "count", "f.tf"⟩,
         ⟨⟨"managed", "aaa", "x"⟩, "", "g.tf"⟩]).sortPlan) := by
  have h := c4_sort_order_and_idempotent
    (importPlan.mk
      [⟨⟨⟨"managed", "bbb", "x"⟩, .int 1⟩, "i1"⟩,
       ⟨⟨⟨"managed", "aaa", "x"⟩, .int 0⟩, "i0"⟩]
      [⟨⟨"managed", "bbb", "x"⟩, "count", "f.tf"⟩,
       ⟨⟨"managed", "aaa", "x"⟩, "", "g.tf"⟩])
    (by decide)
  exact ⟨h.1, h.2.2.2.2⟩

/-! ## Determinism of body generation under map iteration order (C10)

The Go source iterates over several maps (the instance values map, the
per-attribute value maps) whose iteration order Go deliberately randomises.
The embedding represents each such map as an association list, so two runs of
the same program differ exactly in a permutation of those lists.  The lemmas
below show that every observable intermediate of generateConfigBody is
invariant under permuting the instance list, given the well-formedness that
holds of real instance maps: distinct instance addresses, one shared resource
address, one shared instance-key variant. -/

/-- Pointwise-equal functions give equal Option-valued mapM results. -/
theorem mapM_congr {α β : Type _} {f g : α → Option β} :
    ∀ l : List α, (∀ a ∈ l, f a = g a) → l.mapM f = l.mapM g
  | [], _ => rfl
  | a :: t, h => by
    rw [List.mapM_cons, List.mapM_cons, h a (by simp),
      mapM_congr t (fun b hb => h b (by simp [hb]))]

/-- An Option-valued mapM fails exactly when some element fails. -/
theorem mapM_eq_none_iff {α β : Type _} (f : α → Option β) :
    ∀ l : List α, (l.mapM f = Option.none ↔ ∃ a ∈ l, f a = Option.none)
  | [] => by
    constructor
    · intro h
      rw [List.mapM_nil] at h
      cases h
    · rintro ⟨a, ha, -⟩
      exact absurd ha (by simp)
  | a :: t => by
    rw [List.mapM_cons]
    cases hfa : f a with
    | none =>
      constructor
      · intro _
        exact ⟨a, by simp, hfa⟩
      · intro _
        rfl
    | some b =>
      cases hmt : t.mapM f with
      | none =>
        constructor
        · intro _
          obtain ⟨x, hx, hfx⟩ := (mapM_eq_none_iff f t).mp hmt
          exact ⟨x, by simp [hx], hfx⟩
        · intro _
          rfl
      | some bs =>
        show some (b :: bs) = Option.none ↔ _
        simp only [reduceCtorEq, false_iff]
        rintro ⟨x, hx, hfx⟩
        rcases List.mem_cons.mp hx with hx | hx
        · rw [hx, hfa] at hfx
          cases hfx
        · have := (mapM_eq_none_iff f t).mpr ⟨x, hx, hfx⟩
          rw [hmt] at this
          cases this

/-- A succeeding Option-valued mapM has every element succeed. -/
theorem isSome_of_mapM_eq_some {α β : Type _} {f : α → Option β} {l : List α} {r : List β}
    (h : l.mapM f = some r) : ∀ a ∈ l, (f a).isSome := by
  intro a ha
  cases hfa : f a with
  | some b => rfl
  | none =>
    have hn := (mapM_eq_none_iff f l).mpr ⟨a, ha, hfa⟩
    rw [h] at hn
    cases hn

/-- A wholly succeeding Option-valued mapM collects exactly the filterMap of
its function. -/
theorem mapM_eq_some_filterMap {α β : Type _} (f : α → Option β) :
    ∀ l : List α, (∀ a ∈ l, (f a).isSome) → l.mapM f = some (l.filterMap f)
  | [], _ => rfl
  | a :: t, h => by
    rw [List.mapM_cons]
    cases hfa : f a with
    | none =>
      have := h a (by simp)
      rw [hfa] at this
      cases this
    | some b =>
      rw [List.filterMap_cons_some hfa,
        mapM_eq_some_filterMap f t (fun x hx => h x (by simp [hx]))]
      rfl

/-- A gather step that pairs the input's address with a computed value keeps
the address: the first components survive the filterMap unchanged. -/
theorem map_fst_filterMap {α β γ : Type _} (G : α × β → Option (α × γ))
    (hfst : ∀ p q, G p = some q → q.1 = p.1) :
    ∀ l : List (α × β), (∀ p ∈ l, (G p).isSome) →
    ((l.filterMap G).map (fun q => q.1)) = l.map (fun p => p.1)
  | [], _ => rfl
  | p :: t, h => by
    cases hGp : G p with
    | none =>
      have := h p (by simp)
      rw [hGp] at this
      cases this
    | some q =>
      rw [List.filterMap_cons_some hGp, List.map_cons, List.map_cons,
        map_fst_filterMap G hfst t (fun x hx => h x (by simp [hx])), hfst p q hGp]

/-- The well-formedness that real instance-address collections satisfy:
distinct addresses, one resource, one instance-key variant. -/
def AddrsOK (as : List resourceInstanceAddr) : Prop :=
  as.Nodup ∧ (∀ a ∈ as, ∀ b ∈ as, a.Resource = b.Resource) ∧
  (∀ a ∈ as, ∀ b ∈ as, a.InstanceKey.variant = b.InstanceKey.variant)

theorem AddrsOK.perm {as bs : List resourceInstanceAddr} (h : as.Perm bs) :
    AddrsOK as → AddrsOK bs := by
  rintro ⟨hnd, hres, hvar⟩
  refine ⟨h.nodup_iff.mp hnd, ?_, ?_⟩
  · intro a ha b hb
    exact hres a (h.mem_iff.mpr ha) b (h.mem_iff.mpr hb)
  · intro a ha b hb
    exact hvar a (h.mem_iff.mpr ha) b (h.mem_iff.mpr hb)

theorem resourceInstanceAddr_ext {x y : resourceInstanceAddr}
    (h1 : x.Resource = y.Resource) (h2 : x.InstanceKey = y.InstanceKey) : x = y := by
  cases x
  cases y
  cases h1
  cases h2
  rfl

/-- Distinct addresses of one resource have distinct instance keys. -/
theorem AddrsOK.keys_nodup {as : List resourceInstanceAddr} (h : AddrsOK as) :
    (as.map (fun a => a.InstanceKey)).Nodup := by
  obtain ⟨hnd, hres, -⟩ := h
  refine hnd.map_on ?_
  intro x hx y hy hk
  exact resourceInstanceAddr_ext (hres x hx y hy) hk

theorem keyLess_none_none : keyLess InstanceKey.none InstanceKey.none = false := by
  show decide ("" < "") = false
  exact decide_eq_false (lt_irrefl "")

/-- The non-strict order !keyLess is total on keys of one variant. -/
theorem keyLess_le_total (a b : InstanceKey) (h : a.variant = b.variant) :
    (!keyLess b a) = true ∨ (!keyLess a b) = true := by
  cases a with
  | none =>
    cases b with
    | none => exact Or.inl (by simp [keyLess_none_none])
    | int j => simp [InstanceKey.variant] at h
    | str t => simp [InstanceKey.variant] at h
  | int i =>
    cases b with
    | none => simp [InstanceKey.variant] at h
    | int j =>
      rcases le_or_lt i j with hle | hlt
      · exact Or.inl (by simp [keyLess_int_int]; omega)
      · exact Or.inr (by simp [keyLess_int_int]; omega)
    | str t => simp [InstanceKey.variant] at h
  | str s =>
    cases b with
    | none => simp [InstanceKey.variant] at h
    | int j => simp [InstanceKey.variant] at h
    | str t =>
      rcases le_or_lt s t with hle | hlt
      · exact Or.inl (by
          simp only [keyLess_str_str, Bool.not_eq_true', decide_eq_false_iff_not]
          exact not_lt.mpr hle)
      · exact Or.inr (by
          simp only [keyLess_str_str, Bool.not_eq_true', decide_eq_false_iff_not]
          exact asymm hlt)

/-- The non-strict order !keyLess is transitive on keys of one variant. -/
theorem keyLess_le_trans (a b c : InstanceKey)
    (hab : a.variant = b.variant) (hbc : b.variant = c.variant) :
    (!keyLess b a) = true → (!keyLess c b) = true → (!keyLess c a) = true := by
  cases a with
  | none =>
    cases b with
    | none =>
      cases c with
      | none => simp [keyLess_none_none]
      | int k => simp [InstanceKey.variant] at hbc
      | str u => simp [InstanceKey.variant] at hbc
    | int j => simp [InstanceKey.variant] at hab
    | str t => simp [InstanceKey.variant] at hab
  | int i =>
    cases b with
    | none => simp [InstanceKey.variant] at hab
    | int j =>
      cases c with
      | none => simp [InstanceKey.variant] at hbc
      | int k =>
        intro h1 h2
        simp [keyLess_int_int] at h1 h2 ⊢
        omega
      | str u => simp [InstanceKey.variant] at hbc
    | str t => simp [InstanceKey.variant] at hab
  | str s =>
    cases b with
    | none => simp [InstanceKey.variant] at hab
    | int j => simp [InstanceKey.variant] at hab
    | str t =>
      cases c with
      | none => simp [InstanceKey.variant] at hbc
      | int k => simp [InstanceKey.variant] at hbc
      | str u =>
        intro h1 h2
        simp only [keyLess_str_str, Bool.not_eq_true', decide_eq_false_iff_not] at h1 h2 ⊢
        exact fun hus =>
          lt_irrefl u (lt_of_lt_of_le hus ((le_of_not_lt h1).trans (le_of_not_lt h2)))

/-- The non-strict order !keyLess is antisymmetric on keys of one variant. -/
theorem keyLess_le_antisymm (a b : InstanceKey) (h : a.variant = b.variant) :
    (!keyLess b a) = true → (!keyLess a b) = true → a = b := by
  cases a with
  | none =>
    cases b with
    | none => intro _ _; rfl
    | int j => simp [InstanceKey.variant] at h
    | str t => simp [InstanceKey.variant] at h
  | int i =>
    cases b with
    | none => simp [InstanceKey.variant] at h
    | int j =>
      intro h1 h2
      simp [keyLess_int_int] at h1 h2
      simp only [InstanceKey.int.injEq]
      omega
    | str t => simp [InstanceKey.variant] at h
  | str s =>
    cases b with
    | none => simp [InstanceKey.variant] at h
    | int j => simp [InstanceKey.variant] at h
    | str t =>
      intro h1 h2
      simp only [keyLess_str_str, Bool.not_eq_true', decide_eq_false_iff_not] at h1 h2
      rw [le_antisymm (le_of_not_lt h1) (le_of_not_lt h2)]

/-- A key held by no instance finds no value. -/
theorem lookupInstKey_eq_none (vals : List (resourceInstanceAddr × CtyValue))
    (k : InstanceKey) (h : ∀ p ∈ vals, p.1.InstanceKey ≠ k) :
    lookupInstKey vals k = Option.none := by
  unfold lookupInstKey
  have hfind : vals.reverse.find? (fun p => decide (p.1.InstanceKey = k)) = Option.none := by
    refine List.find?_eq_none.mpr ?_
    intro p hp
    simp [h p (List.mem_reverse.mp hp)]
  rw [hfind]
  rfl

/-- With distinct instance keys, the per-key value lookup is invariant under
permuting the instance list. -/
theorem lookupInstKey_perm (l1 l2 : List (resourceInstanceAddr × CtyValue))
    (hperm : l1.Perm l2) (hnd : (l1.map (fun p => p.1.InstanceKey)).Nodup)
    (k : InstanceKey) : lookupInstKey l1 k = lookupInstKey l2 k := by
  by_cases hex : ∃ p ∈ l1, p.1.InstanceKey = k
  · obtain ⟨p, hp, hpk⟩ := hex
    have hnd2 : (l2.map (fun p => p.1.InstanceKey)).Nodup :=
      ((hperm.map (fun p => p.1.InstanceKey)).nodup_iff).mp hnd
    rw [← hpk, lookupInstKey_eq l1 p hnd hp,
      lookupInstKey_eq l2 p hnd2 (hperm.mem_iff.mp hp)]
  · push_neg at hex
    rw [lookupInstKey_eq_none l1 k hex,
      lookupInstKey_eq_none l2 k (fun p hp => hex p (hperm.mem_iff.mpr hp))]

/-- Sorting canonicalizes: two permuted lists sort to the same list when the
order is total, transitive and antisymmetric on their members. -/
theorem isort_eq_of_perm (le : α → α → Bool) (l₁ l₂ : List α) (hperm : l₁.Perm l₂)
    (total : ∀ a ∈ l₁, ∀ b ∈ l₁, le a b = true ∨ le b a = true)
    (htrans : ∀ x ∈ l₁, ∀ y ∈ l₁, ∀ z ∈ l₁,
      le x y = true → le y z = true → le x z = true)
    (anti : ∀ a ∈ l₁, ∀ b ∈ l₁, le a b = true → le b a = true → a = b) :
    isort le l₁ = isort le l₂ := by
  have h1 := pairwise_isort le l₁ total htrans
  have h2 := pairwise_isort le l₂
    (fun a ha b hb => total a (hperm.mem_iff.mpr ha) b (hperm.mem_iff.mpr hb))
    (fun x hx y hy z hz => htrans x (hperm.mem_iff.mpr hx) y (hperm.mem_iff.mpr hy)
      z (hperm.mem_iff.mpr hz))
  refine eq_of_perm_of_pairwise le _ _ ?_ ?_ h1 h2
  · intro a ha b hb
    exact anti a (mem_isort.mp ha) b (mem_isort.mp hb)
  · exact (isort_perm le l₁).trans (hperm.trans (isort_perm le l₂).symm)

/-- The divergent lookup table is invariant under permuting the instance
list: keys of one variant sort identically, and each sorted key looks up the
same value in both lists. -/
theorem buildDynamicLookup_perm (name : String) (style : BracketStyle) (ref : RepRef)
    (l1 l2 : List (resourceInstanceAddr × CtyValue)) (hperm : l1.Perm l2)
    (hnd : (l1.map (fun p => p.1.InstanceKey)).Nodup)
    (hvar : ∀ p ∈ l1, ∀ q ∈ l1, p.1.InstanceKey.variant = q.1.InstanceKey.variant) :
    buildDynamicLookup name l1 style ref = buildDynamicLookup name l2 style ref := by
  have hkperm : (l1.map (fun p => p.1.InstanceKey)).Perm
      (l2.map (fun p => p.1.InstanceKey)) := hperm.map _
  have hvark : ∀ a ∈ l1.map (fun p => p.1.InstanceKey),
      ∀ b ∈ l1.map (fun p => p.1.InstanceKey), a.variant = b.variant := by
    intro a ha b hb
    obtain ⟨p, hp, rfl⟩ := List.mem_map.mp ha
    obtain ⟨q, hq, rfl⟩ := List.mem_map.mp hb
    exact hvar p hp q hq
  have hsorted : isort (fun a b => !keyLess b a) (l1.map (fun p => p.1.InstanceKey)) =
      isort (fun a b => !keyLess b a) (l2.map (fun p => p.1.InstanceKey)) := by
    refine isort_eq_of_perm _ _ _ hkperm ?_ ?_ ?_
    · intro a ha b hb
      exact keyLess_le_total a b (hvark a ha b hb)
    · intro x hx y hy z hz
      exact keyLess_le_trans x y z (hvark x hx y hy) (hvark y hy z hz)
    · intro a ha b hb
      exact keyLess_le_antisymm a b (hvark a ha b hb)
  have hlook : ∀ k, lookupInstKey l1 k = lookupInstKey l2 k :=
    lookupInstKey_perm l1 l2 hperm hnd
  simp only [buildDynamicLookup, hsorted, hlook]

/-- generateConfigAttribute on a successful constant scan. -/
theorem generateConfigAttribute_scan_some (name : String)
    (vals : List (resourceInstanceAddr × CtyValue)) (v : CtyValue)
    (h : singleValScan Option.none (vals.map (fun p => p.2)) = some v) :
    generateConfigAttribute name vals =
      some (if v.isNull then AttrEmission.omit else AttrEmission.const name v) := by
  unfold generateConfigAttribute
  rw [h]

/-- generateConfigAttribute on a failed scan with no instances at all. -/
theorem generateConfigAttribute_scan_none_nil (name : String)
    (vals : List (resourceInstanceAddr × CtyValue))
    (hscan : singleValScan Option.none (vals.map (fun p => p.2)) = Option.none)
    (hh : vals.head? = Option.none) :
    generateConfigAttribute name vals = Option.none := by
  unfold generateConfigAttribute
  rw [hscan, hh]

/-- generateConfigAttribute on a failed scan dispatches on the first
instance's key. -/
theorem generateConfigAttribute_scan_none (name : String)
    (vals : List (resourceInstanceAddr × CtyValue)) (p : resourceInstanceAddr × CtyValue)
    (hscan : singleValScan Option.none (vals.map (fun q => q.2)) = Option.none)
    (hh : vals.head? = some p) :
    generateConfigAttribute name vals =
      (match p.1.InstanceKey with
        | InstanceKey.none => Option.none
        | InstanceKey.int _ =>
          some (buildDynamicLookup name vals BracketStyle.square RepRef.countIndex)
        | InstanceKey.str _ =>
          some (buildDynamicLookup name vals BracketStyle.brace RepRef.eachKey)) := by
  unfold generateConfigAttribute
  rw [hscan, hh]

/-- The emission for one attribute is invariant under permuting the instance
list, given distinct instance keys of one shared variant. -/
theorem generateConfigAttribute_perm (name : String)
    (l1 l2 : List (resourceInstanceAddr × CtyValue)) (hperm : l1.Perm l2)
    (hnd : (l1.map (fun p => p.1.InstanceKey)).Nodup)
    (hvar : ∀ p ∈ l1, ∀ q ∈ l1, p.1.InstanceKey.variant = q.1.InstanceKey.variant) :
    generateConfigAttribute name l1 = generateConfigAttribute name l2 := by
  have hpermv : (l1.map (fun p => p.2)).Perm (l2.map (fun p => p.2)) := hperm.map _
  cases hs1 : singleValScan Option.none (l1.map (fun p => p.2)) with
  | some v =>
    have hs2 : singleValScan Option.none (l2.map (fun p => p.2)) = some v := by
      obtain ⟨hne, hall⟩ := (singleValScan_some_iff v _).mp hs1
      refine (singleValScan_some_iff v _).mpr ⟨?_, ?_⟩
      · intro hc
        exact hne (hc ▸ hpermv).eq_nil
      · intro w hw
        exact hall w (hpermv.mem_iff.mpr hw)
    rw [generateConfigAttribute_scan_some name l1 v hs1,
      generateConfigAttribute_scan_some name l2 v hs2]
  | none =>
    have hs2 : singleValScan Option.none (l2.map (fun p => p.2)) = Option.none := by
      cases h2 : singleValScan Option.none (l2.map (fun p => p.2)) with
      | none => rfl
      | some v =>
        obtain ⟨hne2, hall2⟩ := (singleValScan_some_iff v _).mp h2
        have h1' := (singleValScan_some_iff v (l1.map (fun p => p.2))).mpr
          ⟨fun hc => hne2 (hc ▸ hpermv.symm).eq_nil,
           fun w hw => hall2 w (hpermv.mem_iff.mp hw)⟩
        rw [hs1] at h1'
        cases h1'
    cases hh1 : l1.head? with
    | none =>
      have h1nil : l1 = [] := List.head?_eq_none_iff.mp hh1
      have h2nil : l2 = [] := ((h1nil ▸ hperm : ([] : List _).Perm l2).symm).eq_nil
      rw [generateConfigAttribute_scan_none_nil name l1 hs1 hh1,
        generateConfigAttribute_scan_none_nil name l2 hs2 (by rw [h2nil]; rfl)]
    | some p =>
      have hp1 : p ∈ l1 := List.mem_of_mem_head? (by rw [hh1]; rfl)
      cases hh2 : l2.head? with
      | none =>
        have h2nil : l2 = [] := List.head?_eq_none_iff.mp hh2
        exact absurd (hperm.mem_iff.mp hp1) (by simp [h2nil])
      | some q =>
        have hq1 : q ∈ l1 := hperm.mem_iff.mpr (List.mem_of_mem_head? (by rw [hh2]; rfl))
        have hv := hvar p hp1 q hq1
        rw [generateConfigAttribute_scan_none name l1 p hs1 hh1,
          generateConfigAttribute_scan_none name l2 q hs2 hh2]
        cases hkp : p.1.InstanceKey with
        | none =>
          cases hkq : q.1.InstanceKey with
          | none => rfl
          | int j => rw [hkp, hkq] at hv; simp [InstanceKey.variant] at hv
          | str t => rw [hkp, hkq] at hv; simp [InstanceKey.variant] at hv
        | int i =>
          cases hkq : q.1.InstanceKey with
          | none => rw [hkp, hkq] at hv; simp [InstanceKey.variant] at hv
          | int j =>
            show some (buildDynamicLookup name l1 BracketStyle.square RepRef.countIndex) =
              some (buildDynamicLookup name l2 BracketStyle.square RepRef.countIndex)
            exact congrArg some
              (buildDynamicLookup_perm name BracketStyle.square RepRef.countIndex
                l1 l2 hperm hnd hvar)
          | str t => rw [hkp, hkq] at hv; simp [InstanceKey.variant] at hv
        | str s =>
          cases hkq : q.1.InstanceKey with
          | none => rw [hkp, hkq] at hv; simp [InstanceKey.variant] at hv
          | int j => rw [hkp, hkq] at hv; simp [InstanceKey.variant] at hv
          | str t =>
            show some (buildDynamicLookup name l1 BracketStyle.brace RepRef.eachKey) =
              some (buildDynamicLookup name l2 BracketStyle.brace RepRef.eachKey)
            exact congrArg some
              (buildDynamicLookup_perm name BracketStyle.brace RepRef.eachKey
                l1 l2 hperm hnd hvar)

/-- A gather pass over a permuted instance list either fails on both sides or
collects permuted result lists whose addresses are the input addresses. -/
theorem gather_mapM_perm {β : Type _}
    (G : resourceInstanceAddr × CtyValue → Option (resourceInstanceAddr × β))
    (hfst : ∀ p q, G p = some q → q.1 = p.1)
    (l1 l2 : List (resourceInstanceAddr × CtyValue)) (hperm : l1.Perm l2) :
    (l1.mapM G = Option.none → l2.mapM G = Option.none) ∧
    (∀ r1, l1.mapM G = some r1 →
      ∃ r2, l2.mapM G = some r2 ∧ r1.Perm r2 ∧
        r1.map (fun q => q.1) = l1.map (fun p => p.1) ∧
        r2.map (fun q => q.1) = l2.map (fun p => p.1)) := by
  constructor
  · intro h1
    obtain ⟨p, hp, hGp⟩ := (mapM_eq_none_iff G l1).mp h1
    exact (mapM_eq_none_iff G l2).mpr ⟨p, hperm.mem_iff.mp hp, hGp⟩
  · intro r1 h1
    have hall1 : ∀ p ∈ l1, (G p).isSome := isSome_of_mapM_eq_some h1
    have hall2 : ∀ p ∈ l2, (G p).isSome := fun p hp => hall1 p (hperm.mem_iff.mpr hp)
    have hr1 : r1 = l1.filterMap G :=
      (Option.some.inj ((mapM_eq_some_filterMap G l1 hall1).symm.trans h1)).symm
    refine ⟨l2.filterMap G, mapM_eq_some_filterMap G l2 hall2, ?_, ?_, ?_⟩
    · rw [hr1]
      exact hperm.filterMap G
    · rw [hr1]
      exact map_fst_filterMap G hfst l1 hall1
    · exact map_fst_filterMap G hfst l2 hall2

/-- Distinct addresses of one resource give distinct keys, paired form. -/
theorem AddrsOK.pair_keys_nodup {β : Type _} {l : List (resourceInstanceAddr × β)}
    (h : AddrsOK (l.map (fun p => p.1))) :
    (l.map (fun p => p.1.InstanceKey)).Nodup := by
  have h2 := h.keys_nodup
  have h3 : l.map (fun p => p.1.InstanceKey) =
      (l.map (fun p => p.1)).map (fun a => a.InstanceKey) := by
    rw [List.map_map]
    rfl
  rw [h3]
  exact h2

/-- One shared key variant, paired form. -/
theorem AddrsOK.pair_var {β : Type _} {l : List (resourceInstanceAddr × β)}
    (h : AddrsOK (l.map (fun p => p.1))) :
    ∀ p ∈ l, ∀ q ∈ l, p.1.InstanceKey.variant = q.1.InstanceKey.variant := by
  intro p hp q hq
  exact h.2.2 p.1 (List.mem_map.mpr ⟨p, hp, rfl⟩) q.1 (List.mem_map.mpr ⟨q, hq, rfl⟩)

/-- Re-pairing each entry's address with a new value keeps the addresses. -/
theorem map_fst_map_pair {β γ : Type _} (X : resourceInstanceAddr × β → γ) :
    ∀ l : List (resourceInstanceAddr × β),
    ((l.map (fun p => (p.1, X p))).map (fun q => q.1)) = l.map (fun p => p.1)
  | [] => rfl
  | p :: t => by
    rw [List.map_cons, List.map_cons, List.map_cons, map_fst_map_pair X t]

theorem strLe_total (a b : String) :
    (!decide (b < a)) = true ∨ (!decide (a < b)) = true := by
  rcases le_or_lt a b with h | h
  · exact Or.inl (by
      simp only [Bool.not_eq_true', decide_eq_false_iff_not]
      exact not_lt.mpr h)
  · exact Or.inr (by
      simp only [Bool.not_eq_true', decide_eq_false_iff_not]
      exact asymm h)

theorem strLe_trans (x y z : String) :
    (!decide (y < x)) = true → (!decide (z < y)) = true → (!decide (z < x)) = true := by
  simp only [Bool.not_eq_true', decide_eq_false_iff_not]
  intro h1 h2 h
  exact lt_irrefl z (lt_of_lt_of_le h ((le_of_not_lt h1).trans (le_of_not_lt h2)))

theorem strLe_antisymm (a b : String) :
    (!decide (b < a)) = true → (!decide (a < b)) = true → a = b := by
  simp only [Bool.not_eq_true', decide_eq_false_iff_not]
  intro h1 h2
  exact le_antisymm (le_of_not_lt h1) (le_of_not_lt h2)

/-- Every stage of body generation is invariant under permuting the instance
list, given distinct addresses sharing one resource and one key variant; the
five conjuncts cover the five mutually recursive generators, indexed by a
bound on the schema size for the induction. -/
theorem genPerm_bundle : ∀ n : Nat,
    (∀ schema : SchemaBlock, sizeOf schema ≤ n →
      ∀ l1 l2 : List (resourceInstanceAddr × CtyValue), l1.Perm l2 →
      AddrsOK (l1.map (fun p => p.1)) →
      generateConfigBody schema l1 = generateConfigBody schema l2) ∧
    (∀ bt : SchemaBlockType, sizeOf bt ≤ n →
      ∀ tn : String, ∀ l1 l2 : List (resourceInstanceAddr × CtyValue), l1.Perm l2 →
      AddrsOK (l1.map (fun p => p.1)) →
      genNestedBlock tn bt l1 = genNestedBlock tn bt l2) ∧
    (∀ sub : SchemaBlock, sizeOf sub ≤ n →
      ∀ tn : String, ∀ l1 l2 : List (resourceInstanceAddr × CtyValue), l1.Perm l2 →
      AddrsOK (l1.map (fun p => p.1)) →
      genNestedListSet tn sub l1 = genNestedListSet tn sub l2) ∧
    (∀ sub : SchemaBlock, sizeOf sub ≤ n →
      ∀ tn : String, ∀ l1 l2 : List (resourceInstanceAddr × CtyValue), l1.Perm l2 →
      AddrsOK (l1.map (fun p => p.1)) →
      genNestedMap tn sub l1 = genNestedMap tn sub l2) ∧
    (∀ sub : SchemaBlock, sizeOf sub ≤ n →
      ∀ tn : String, ∀ labels : List String,
      ∀ l1 l2 : List (resourceInstanceAddr × CtyValue), l1.Perm l2 →
      AddrsOK (l1.map (fun p => p.1)) →
      generateConfigBlock tn labels sub l1 = generateConfigBlock tn labels sub l2) := by
  intro n
  induction n using Nat.strong_induction_on with
  | _ n IH =>
    have hbody : ∀ schema : SchemaBlock, sizeOf schema ≤ n →
        ∀ l1 l2 : List (resourceInstanceAddr × CtyValue), l1.Perm l2 →
        AddrsOK (l1.map (fun p => p.1)) →
        generateConfigBody schema l1 = generateConfigBody schema l2 := by
      intro schema hsz l1 l2 hperm hok
      cases schema with
      | mk attributes nestedBlocks =>
        simp only [generateConfigBody]
        have hattr : ∀ pa ∈ isort
            (fun (a b : String × SchemaAttribute) => !decide (b.1 < a.1)) attributes,
            (if !(pa.2.Required || pa.2.Optional) then (pure [] : Option (List BodyItem))
             else do
              let attrVals ← l1.mapM (fun p => do
                let v ← gatherAttrVal p.2 pa.1 pa.2.AttributeType
                pure (p.1, v))
              let e ← generateConfigAttribute pa.1 attrVals
              pure (match e with
                | AttrEmission.omit => ([] : List BodyItem)
                | e' => [BodyItem.attr e'])) =
            (if !(pa.2.Required || pa.2.Optional) then (pure [] : Option (List BodyItem))
             else do
              let attrVals ← l2.mapM (fun p => do
                let v ← gatherAttrVal p.2 pa.1 pa.2.AttributeType
                pure (p.1, v))
              let e ← generateConfigAttribute pa.1 attrVals
              pure (match e with
                | AttrEmission.omit => ([] : List BodyItem)
                | e' => [BodyItem.attr e'])) := by
          intro pa hpa
          by_cases hw : (!(pa.2.Required || pa.2.Optional)) = true
          · rw [if_pos hw, if_pos hw]
          · rw [if_neg hw, if_neg hw]
            have hfst : ∀ (p : resourceInstanceAddr × CtyValue) q,
                (do
                  let v ← gatherAttrVal p.2 pa.1 pa.2.AttributeType
                  pure (p.1, v)) = some q → q.1 = p.1 := by
              intro p q hq
              cases hg : gatherAttrVal p.2 pa.1 pa.2.AttributeType with
              | none => rw [hg] at hq; exact Option.noConfusion hq
              | some v => rw [hg] at hq; have h2 := (Option.some.inj hq).symm; subst h2; rfl
            cases hG1 : l1.mapM (fun p => do
                let v ← gatherAttrVal p.2 pa.1 pa.2.AttributeType
                pure (p.1, v)) with
            | none =>
              rw [(gather_mapM_perm _ hfst l1 l2 hperm).1 hG1]
            | some r1 =>
              obtain ⟨r2, hG2, hr, hf1, hf2⟩ :=
                (gather_mapM_perm _ hfst l1 l2 hperm).2 r1 hG1
              rw [hG2]
              simp only [Option.bind_eq_bind, Option.some_bind]
              rw [generateConfigAttribute_perm pa.1 r1 r2 hr
                (AddrsOK.pair_keys_nodup (by rw [hf1]; exact hok))
                (AddrsOK.pair_var (by rw [hf1]; exact hok))]
        have hB : ∀ x ∈ (isort
            (fun (a b : String × SchemaBlockType) => !decide (b.1 < a.1)) nestedBlocks).attach,
            genNestedBlock x.1.1 x.1.2 l1 = genNestedBlock x.1.1 x.1.2 l2 := by
          intro x hx
          have hmem : x.1 ∈ nestedBlocks := mem_isort.mp x.2
          have hlt : sizeOf x.1.2 < n := by
            have h1 := sizeOf_snd_lt_of_mem' hmem
            have h2 : sizeOf (SchemaBlock.mk attributes nestedBlocks) =
                1 + sizeOf attributes + sizeOf nestedBlocks := by
              simp [SchemaBlock.mk.sizeOf_spec]
            omega
          exact (IH (sizeOf x.1.2) hlt).2.1 x.1.2 (le_refl _) x.1.1 l1 l2 hperm hok
        rw [mapM_congr _ hattr, mapM_congr _ hB]
    have hblock : ∀ sub : SchemaBlock, sizeOf sub ≤ n →
        ∀ tn : String, ∀ labels : List String,
        ∀ l1 l2 : List (resourceInstanceAddr × CtyValue), l1.Perm l2 →
        AddrsOK (l1.map (fun p => p.1)) →
        generateConfigBlock tn labels sub l1 = generateConfigBlock tn labels sub l2 := by
      intro sub hsz tn labels l1 l2 hperm hok
      simp only [generateConfigBlock]
      rw [hbody sub hsz l1 l2 hperm hok]
    have hlistset : ∀ sub : SchemaBlock, sizeOf sub ≤ n →
        ∀ tn : String, ∀ l1 l2 : List (resourceInstanceAddr × CtyValue), l1.Perm l2 →
        AddrsOK (l1.map (fun p => p.1)) →
        genNestedListSet tn sub l1 = genNestedListSet tn sub l2 := by
      intro sub hsz tn l1 l2 hperm hok
      simp only [genNestedListSet]
      have hfst : ∀ (p : resourceInstanceAddr × CtyValue) q,
          (do
            let av ← p.2.getAttr tn
            let s ← av.asValueSlice
            pure (p.1, s)) = some q → q.1 = p.1 := by
        intro p q hq
        cases hg : p.2.getAttr tn with
        | none => rw [hg] at hq; exact Option.noConfusion hq
        | some av =>
          rw [hg] at hq
          simp only [Option.bind_eq_bind, Option.some_bind] at hq
          cases hs : av.asValueSlice with
          | none => rw [hs] at hq; exact Option.noConfusion hq
          | some s => rw [hs] at hq; have h2 := (Option.some.inj hq).symm; subst h2; rfl
      cases hS1 : l1.mapM (fun p => do
          let av ← p.2.getAttr tn
          let s ← av.asValueSlice
          pure (p.1, s)) with
      | none =>
        rw [(gather_mapM_perm _ hfst l1 l2 hperm).1 hS1]
      | some r1 =>
        obtain ⟨r2, hS2, hr, hf1, hf2⟩ := (gather_mapM_perm _ hfst l1 l2 hperm).2 r1 hS1
        rw [hS2]
        simp only [Option.bind_eq_bind, Option.some_bind]
        have hmax : r1.foldl (fun m p => if p.2.length > m then p.2.length else m) 0 =
            r2.foldl (fun m p => if p.2.length > m then p.2.length else m) 0 := by
          haveI : RightCommutative (fun (m : Nat) (p : resourceInstanceAddr × List CtyValue) =>
              if p.2.length > m then p.2.length else m) := by
            constructor
            intro b a c
            dsimp only
            split_ifs <;> omega
          exact hr.foldl_eq 0
        rw [hmax]
        refine mapM_congr _ ?_
        intro i hi
        exact hblock sub hsz tn [] _ _ (hr.map _)
          (by rw [map_fst_map_pair, hf1]; exact hok)
    have hmap : ∀ sub : SchemaBlock, sizeOf sub ≤ n →
        ∀ tn : String, ∀ l1 l2 : List (resourceInstanceAddr × CtyValue), l1.Perm l2 →
        AddrsOK (l1.map (fun p => p.1)) →
        genNestedMap tn sub l1 = genNestedMap tn sub l2 := by
      intro sub hsz tn l1 l2 hperm hok
      simp only [genNestedMap]
      have hfst : ∀ (p : resourceInstanceAddr × CtyValue) q,
          (do
            let av ← p.2.getAttr tn
            let m ← av.asValueMap
            pure (p.1, m)) = some q → q.1 = p.1 := by
        intro p q hq
        cases hg : p.2.getAttr tn with
        | none => rw [hg] at hq; exact Option.noConfusion hq
        | some av =>
          rw [hg] at hq
          simp only [Option.bind_eq_bind, Option.some_bind] at hq
          cases hs : av.asValueMap with
          | none => rw [hs] at hq; exact Option.noConfusion hq
          | some m => rw [hs] at hq; have h2 := (Option.some.inj hq).symm; subst h2; rfl
      cases hS1 : l1.mapM (fun p => do
          let av ← p.2.getAttr tn
          let m ← av.asValueMap
          pure (p.1, m)) with
      | none =>
        rw [(gather_mapM_perm _ hfst l1 l2 hperm).1 hS1]
      | some r1 =>
        obtain ⟨r2, hS2, hr, hf1, hf2⟩ := (gather_mapM_perm _ hfst l1 l2 hperm).2 r1 hS1
        rw [hS2]
        simp only [Option.bind_eq_bind, Option.some_bind]
        have hkeys : isort (fun a b => !decide (b < a))
              ((r1.flatMap (fun p => p.2.map (fun q => q.1))).dedup) =
            isort (fun a b => !decide (b < a))
              ((r2.flatMap (fun p => p.2.map (fun q => q.1))).dedup) := by
          refine isort_eq_of_perm _ _ _ ?_ ?_ ?_ ?_
          · exact (List.Perm.flatMap_right _ hr).dedup
          · intro a _ b _
            exact strLe_total a b
          · intro x _ y _ z _
            exact strLe_trans x y z
          · intro a _ b _
            exact strLe_antisymm a b
        rw [hkeys]
        refine mapM_congr _ ?_
        intro k hk
        exact hblock sub hsz tn [k] _ _ (hr.map _)
          (by rw [map_fst_map_pair, hf1]; exact hok)
    have hnested : ∀ bt : SchemaBlockType, sizeOf bt ≤ n →
        ∀ tn : String, ∀ l1 l2 : List (resourceInstanceAddr × CtyValue), l1.Perm l2 →
        AddrsOK (l1.map (fun p => p.1)) →
        genNestedBlock tn bt l1 = genNestedBlock tn bt l2 := by
      intro bt hsz tn l1 l2 hperm hok
      cases bt with
      | mk mode sub =>
        have hsub : sizeOf sub ≤ n := by
          have : sizeOf (SchemaBlockType.mk mode sub) = 1 + sizeOf mode + sizeOf sub := by
            simp [SchemaBlockType.mk.sizeOf_spec]
          omega
        cases mode with
        | single =>
          simp only [genNestedBlock]
          have hfst : ∀ (p : resourceInstanceAddr × CtyValue) q,
              (do
                let v ← gatherBlockVal p.2 tn sub
                pure (p.1, v)) = some q → q.1 = p.1 := by
            intro p q hq
            cases hg : gatherBlockVal p.2 tn sub with
            | none => rw [hg] at hq; exact Option.noConfusion hq
            | some v => rw [hg] at hq; have h2 := (Option.some.inj hq).symm; subst h2; rfl
          cases hS1 : l1.mapM (fun p => do
              let v ← gatherBlockVal p.2 tn sub
              pure (p.1, v)) with
          | none =>
            rw [(gather_mapM_perm _ hfst l1 l2 hperm).1 hS1]
          | some r1 =>
            obtain ⟨r2, hS2, hr, hf1, hf2⟩ := (gather_mapM_perm _ hfst l1 l2 hperm).2 r1 hS1
            rw [hS2]
            simp only [Option.bind_eq_bind, Option.some_bind]
            rw [hblock sub hsub tn [] r1 r2 hr (by rw [hf1]; exact hok)]
        | list =>
          simp only [genNestedBlock]
          exact hlistset sub hsub tn l1 l2 hperm hok
        | set =>
          simp only [genNestedBlock]
          exact hlistset sub hsub tn l1 l2 hperm hok
        | map =>
          simp only [genNestedBlock]
          exact hmap sub hsub tn l1 l2 hperm hok
        | invalid =>
          simp only [genNestedBlock]
    exact ⟨hbody, hnested, hlistset, hmap, hblock⟩

/-- C10: configuration synthesis is deterministic under internal map
iteration order.  For a fixed schema and a fixed mapping from instance
addresses to decoded values — distinct addresses, all naming one resource,
all instance keys of one variant — any two iteration orders of the mapping
(any two permutations of the association list) make generateConfigBody emit
identical output: attribute names and nested-block type names are processed
in lexicographically sorted order, map-nesting keys in sorted order of the
union of keys, and divergent lookup-table entries in ascending key order, so
no trace of the iteration order survives. -/
theorem c10_deterministic_generation (schema : SchemaBlock)
    (l1 l2 : List (resourceInstanceAddr × CtyValue)) (hperm : l1.Perm l2)
    (hnd : (l1.map (fun p => p.1)).Nodup)
    (hres : ∀ p ∈ l1, ∀ q ∈ l1, p.1.Resource = q.1.Resource)
    (hvar : ∀ p ∈ l1, ∀ q ∈ l1, p.1.InstanceKey.variant = q.1.InstanceKey.variant) :
    generateConfigBody schema l1 = generateConfigBody schema l2 := by
  refine (genPerm_bundle (sizeOf schema)).1 schema (le_refl _) l1 l2 hperm ⟨hnd, ?_, ?_⟩
  · intro a ha b hb
    obtain ⟨p, hp, rfl⟩ := List.mem_map.mp ha
    obtain ⟨q, hq, rfl⟩ := List.mem_map.mp hb
    exact hres p hp q hq
  · intro a ha b hb
    obtain ⟨p, hp, rfl⟩ := List.mem_map.mp ha
    obtain ⟨q, hq, rfl⟩ := List.mem_map.mp hb
    exact hvar p hp q hq

/-- Witness for C10: a one-attribute schema over two instances with
divergent values generated from the two iteration orders of the instance
map gives identical bodies. -/
theorem c10_witness :
    generateConfigBody (SchemaBlock.mk [("a", ⟨CtyType.string, true, false⟩)] [])
        [(⟨⟨"managed", "t", "n"⟩, InstanceKey.int 0⟩,
            CtyValue.objV (.cons "a" (CtyValue.strV "x") .nil)),
         (⟨⟨"managed", "t", "n"⟩, InstanceKey.int 1⟩,
            CtyValue.objV (.cons "a" (CtyValue.strV "y") .nil))] =
      generateConfigBody (SchemaBlock.mk [("a", ⟨CtyType.string, true, false⟩)] [])
        [(⟨⟨"managed", "t", "n"⟩, InstanceKey.int 1⟩,
            CtyValue.objV (.cons "a" (CtyValue.strV "y") .nil)),
         (⟨⟨"managed", "t", "n"⟩, InstanceKey.int 0⟩,
            CtyValue.objV (.cons "a" (CtyValue.strV "x") .nil))] :=
  c10_deterministic_generation _ _ _ (List.Perm.swap _ _ [])
    (by decide) (by decide) (by decide)

end Terrafy
